import Mathlib

/-! Vertica AES-GCM scalar functions: embedding and verified properties.

A shallow embedding of the column-level AES-256-GCM functions of this repository
(`AESGCMFunction.cpp`, `AESGCMEncrypt.cpp`, `AESGCMDecrypt.cpp`).

* Byte strings (the contents of a `VString`, the nonce array, the key) are lists of
  natural numbers; a byte is a number below 256.
* The libsodium AES-256-GCM calls are kept abstract (`Aes256Gcm`): the functions of the
  repository only move bytes into and out of them.
* `vt_report_error` throws: it is the `Except.error` result of a row or of a block.
* Every row step records the column values it fetches and the library calls it makes
  in a trace, so that "the primitive is not called" is a statement about the trace.
-/

set_option autoImplicit false

namespace VerticaAesGcm

/-! ## Data model -/

/-- Byte strings. -/
abbrev Bytes := List Nat

/-- Modelled from the spec: the libsodium constant for the nonce size, 12 bytes
(`sodium.h` is not part of the sources). -/
def crypto_aead_aes256gcm_NPUBBYTES : Nat := 12

/-- Modelled from the spec: the libsodium constant for the size of the authentication
tag, 16 bytes (`sodium.h` is not part of the sources). -/
def crypto_aead_aes256gcm_ABYTES : Nat := 16

/-- Modelled from the spec: the libsodium constant for the key size, 32 bytes
(`sodium.h` is not part of the sources). -/
def crypto_aead_aes256gcm_KEYBYTES : Nat := 32

/-- The libsodium AES-256-GCM functions the repository calls, kept abstract.
The associated data argument is `none` for the pair (NULL pointer, length 0) and
`some ad` for a pointer to the bytes `ad` with their length.
`encrypt_afternm m ad npub ctx` is the byte string written to the output pointer;
`decrypt_afternm c ad npub ctx` is the return code with the bytes written to the
plaintext pointer. -/
structure Aes256Gcm (Ctx : Type) where
  /-- Key expansion `crypto_aead_aes256gcm_beforenm`. -/
  beforenm : Bytes → Ctx
  /-- Encryption `crypto_aead_aes256gcm_encrypt_afternm`. -/
  encrypt_afternm : Bytes → Option Bytes → Bytes → Ctx → Bytes
  /-- Decryption `crypto_aead_aes256gcm_decrypt_afternm`. -/
  decrypt_afternm : Bytes → Option Bytes → Bytes → Ctx → Int × Bytes

/-- The errors raised through `vt_report_error`, one constructor per message. -/
inductive Error where
  /-- "Function accepts either 1 or 2 arguments, but %zu provided". -/
  | arity (provided : Nat)
  /-- "Required parameter "key" missing". -/
  | missingKeyParameter
  /-- "Failed to read key from file: %s". -/
  | keyFile (path : String)
  /-- "System support required for AES256-GCM is unavailable". -/
  | unavailable
  /-- "Ciphertext in column '%s' is too short (%zu) expected at least %zu". -/
  | tooShort (column : String) (actual : Nat) (expected : Nat)
  /-- "Failed to verify ciphertext in column '%s'". -/
  | verifyFailed (column : String)
  /-- "Error encountered during decryption of column '%s'". -/
  | decryptionError (column : String)
  deriving DecidableEq, Repr

/-- What a row step does besides computing its result. -/
inductive Event where
  /-- The call `randombytes_buf(nonce, sizeof(nonce))`. -/
  | randombytes
  /-- The call `arg_reader.getStringRef(col)`. -/
  | getStringRef (col : Nat)
  /-- A call of `crypto_aead_aes256gcm_encrypt_afternm` with these arguments. -/
  | encryptCall (m : Bytes) (ad : Option Bytes) (npub : Bytes)
  /-- A call of `crypto_aead_aes256gcm_decrypt_afternm` with these arguments. -/
  | decryptCall (c : Bytes) (ad : Option Bytes) (npub : Bytes)
  /-- The call `sodium_increment(nonce, 12)`. -/
  | increment
  deriving DecidableEq, Repr

/-- A result (or the error thrown) together with the trace of what was done. -/
structure Outcome (α : Type) where
  /-- The value produced, or the error reported. -/
  result : Except Error α
  /-- The column fetches and library calls, in order. -/
  trace : List Event

/-- A row of a block: one cell per argument column, `none` for SQL NULL. -/
abbrev Row := List (Option Bytes)

/-- The test `arg_reader.isNull(i)` on the current row. -/
def Row.isNull (r : Row) (i : Nat) : Bool := (r.getD i none).isNone

/-- The value `arg_reader.getStringRef(i)` of the current row. -/
def Row.getStringRef (r : Row) (i : Nat) : Bytes := (r.getD i none).getD []

/-- The block reader: the number of argument columns, the row it is positioned on and
the rows `next()` moves to. -/
structure BlockReader where
  /-- The value `getNumCols()`. -/
  numCols : Nat
  /-- The current row when `processBlock` is entered. -/
  row : Row
  /-- The rows that follow. -/
  more : List Row

/-- All rows of a block, in order. -/
def BlockReader.rows (r : BlockReader) : List Row := r.row :: r.more

/-- The state shared by both functions: members `crypto_ctx` and `column_name` of
`AESGCMFunction`. -/
structure AESGCMFunction (Ctx : Type) where
  /-- The key context set up by `setup`. -/
  crypto_ctx : Ctx
  /-- The name of argument column 0. -/
  column_name : String

/-- The constant `AESGCMFunction::overhead`. -/
def AESGCMFunction.overhead : Nat :=
  crypto_aead_aes256gcm_NPUBBYTES + crypto_aead_aes256gcm_ABYTES

/-! ## Buffers -/

/-- A buffer from `VString::alloc(n)`: length `n` (its bytes are zero here). -/
def alloc (n : Nat) : Bytes := List.replicate n 0

/-- Writing `data` into `buf` from offset `off` on; the length of the buffer stays. -/
def writeAt (buf : Bytes) (off : Nat) (data : Bytes) : Bytes :=
  (buf.take off ++ data ++ buf.drop (off + data.length)).take buf.length

/-! ## The nonce counter -/

/-- Modelled from the spec: `sodium_increment` is a libsodium function, missing from the
sources. The spec has the nonce incremented as a 12-byte unsigned integer that wraps on
overflow; the byte order, least significant byte first, and the loop are the library's
published definition: `c += n[i]; n[i] = (unsigned char) c; c >>= 8` over the bytes from
the first on, `c` being the carry. -/
def sodium_increment_loop : Nat → Bytes → Bytes
  | _, [] => []
  | c, b :: bs => (c + b) % 256 :: sodium_increment_loop ((c + b) / 256) bs

/-- The call `sodium_increment(n, nlen)`: the first `nlen` bytes are incremented with
carry 1 going in, the others are left alone. -/
def sodium_increment (n : Bytes) (nlen : Nat) : Bytes :=
  sodium_increment_loop 1 (n.take nlen) ++ n.drop nlen

/-- The value of a byte string read as an unsigned little-endian integer. -/
def leValue : Bytes → Nat
  | [] => 0
  | b :: bs => b + 256 * leValue bs

/-- A nonce array as C has it: 12 bytes, each below 256. -/
def IsNonce (n : Bytes) : Prop :=
  n.length = crypto_aead_aes256gcm_NPUBBYTES ∧ ∀ b ∈ n, b < 256

instance (n : Bytes) : Decidable (IsNonce n) := by
  unfold IsNonce; exact inferInstance

/-! ## Associated data -/

/-- The associated data handed to the primitive for a row (`AESGCMEncrypt.cpp` lines
66-74, `AESGCMDecrypt.cpp` lines 58-66), with the fetch of column 1 when it happens. -/
def associatedData (numCols : Nat) (r : Row) : Option Bytes × List Event :=
  if numCols > 1 && !r.isNull 1 then
    let ad := r.getStringRef 1
    (if ad.length > 0 then some ad else none, [Event.getStringRef 1])
  else
    (none, [])

/-! ## Encryption -/

/-- One pass through the body of the loop of `AESGCMEncrypt::processBlock` with the
nonce array holding `nonce`: the value written to the result column (`none` for
NULL), the trace, and the nonce array afterwards. -/
def AESGCMEncrypt.processRow {Ctx : Type} (prim : Aes256Gcm Ctx) (f : AESGCMFunction Ctx)
    (numCols : Nat) (nonce : Bytes) (r : Row) : Option Bytes × List Event × Bytes :=
  if r.isNull 0 then
    (none, [], nonce)
  else
    let plaintext := r.getStringRef 0
    let ad := associatedData numCols r
    let buf := alloc (plaintext.length + AESGCMFunction.overhead)
    let buf := writeAt buf 0 (nonce.take crypto_aead_aes256gcm_NPUBBYTES)
    let c := prim.encrypt_afternm plaintext ad.1 nonce f.crypto_ctx
    let buf := writeAt buf crypto_aead_aes256gcm_NPUBBYTES c
    (some buf,
      [Event.getStringRef 0] ++ ad.2 ++ [Event.encryptCall plaintext ad.1 nonce, Event.increment],
      sodium_increment nonce crypto_aead_aes256gcm_NPUBBYTES)

/-- The loop of `AESGCMEncrypt::processBlock` over the rows: the values written, row
by row, and the trace. -/
def AESGCMEncrypt.loop {Ctx : Type} (prim : Aes256Gcm Ctx) (f : AESGCMFunction Ctx)
    (numCols : Nat) : Bytes → List Row → List (Option Bytes) × List Event
  | _, [] => ([], [])
  | nonce, r :: rs =>
    let step := AESGCMEncrypt.processRow prim f numCols nonce r
    let rest := AESGCMEncrypt.loop prim f numCols step.2.2 rs
    (step.1 :: rest.1, step.2.1 ++ rest.2)

/-- The function `AESGCMEncrypt::processBlock`; `seed` is what `randombytes_buf` puts
into the nonce array. -/
def AESGCMEncrypt.processBlock {Ctx : Type} (prim : Aes256Gcm Ctx) (f : AESGCMFunction Ctx)
    (seed : Bytes) (arg_reader : BlockReader) : Outcome (List (Option Bytes)) :=
  if arg_reader.numCols < 1 || arg_reader.numCols > 2 then
    ⟨.error (.arity arg_reader.numCols), []⟩
  else
    let run := AESGCMEncrypt.loop prim f arg_reader.numCols seed arg_reader.rows
    ⟨.ok run.1, Event.randombytes :: run.2⟩

/-! ## Decryption -/

/-- One pass through the body of the loop of `AESGCMDecrypt::processBlock`: the value
written to the result column (`none` for NULL) or the error thrown, and the trace. -/
def AESGCMDecrypt.processRow {Ctx : Type} (prim : Aes256Gcm Ctx) (f : AESGCMFunction Ctx)
    (numCols : Nat) (r : Row) : Outcome (Option Bytes) :=
  if r.isNull 0 then
    ⟨.ok none, []⟩
  else
    let nonce_and_ciphertext := r.getStringRef 0
    let ad := associatedData numCols r
    let fetched := [Event.getStringRef 0] ++ ad.2
    if nonce_and_ciphertext.length < AESGCMFunction.overhead then
      ⟨.error (.tooShort f.column_name nonce_and_ciphertext.length AESGCMFunction.overhead),
        fetched⟩
    else
      let plaintext := alloc (nonce_and_ciphertext.length - AESGCMFunction.overhead)
      let nonce := nonce_and_ciphertext.take crypto_aead_aes256gcm_NPUBBYTES
      let ciphertext_length := nonce_and_ciphertext.length - crypto_aead_aes256gcm_NPUBBYTES
      let ciphertext :=
        (nonce_and_ciphertext.drop crypto_aead_aes256gcm_NPUBBYTES).take ciphertext_length
      let decrypt_res := prim.decrypt_afternm ciphertext ad.1 nonce f.crypto_ctx
      let called := fetched ++ [Event.decryptCall ciphertext ad.1 nonce]
      if decrypt_res.1 = -1 then
        ⟨.error (.verifyFailed f.column_name), called⟩
      else if decrypt_res.1 ≠ 0 then
        ⟨.error (.decryptionError f.column_name), called⟩
      else
        ⟨.ok (some (writeAt plaintext 0 decrypt_res.2)), called⟩

/-- The loop of `AESGCMDecrypt::processBlock` over the rows; the first error thrown
ends it. -/
def AESGCMDecrypt.loop {Ctx : Type} (prim : Aes256Gcm Ctx) (f : AESGCMFunction Ctx)
    (numCols : Nat) : List Row → Outcome (List (Option Bytes))
  | [] => ⟨.ok [], []⟩
  | r :: rs =>
    let step := AESGCMDecrypt.processRow prim f numCols r
    match step.result with
    | .error e => ⟨.error e, step.trace⟩
    | .ok v =>
      let rest := AESGCMDecrypt.loop prim f numCols rs
      match rest.result with
      | .error e => ⟨.error e, step.trace ++ rest.trace⟩
      | .ok vs => ⟨.ok (v :: vs), step.trace ++ rest.trace⟩

/-- The function `AESGCMDecrypt::processBlock`. -/
def AESGCMDecrypt.processBlock {Ctx : Type} (prim : Aes256Gcm Ctx) (f : AESGCMFunction Ctx)
    (arg_reader : BlockReader) : Outcome (List (Option Bytes)) :=
  if arg_reader.numCols < 1 || arg_reader.numCols > 2 then
    ⟨.error (.arity arg_reader.numCols), []⟩
  else
    AESGCMDecrypt.loop prim f arg_reader.numCols arg_reader.rows

/-! ## Declared result types -/

/-- A sized column type added to the return type: `addVarbinary(len)` or
`addVarchar(len)`. -/
inductive SizedType where
  /-- The type `VARBINARY(len)`. -/
  | varbinary (len : Int)
  /-- The type `VARCHAR(len)`. -/
  | varchar (len : Int)
  deriving DecidableEq, Repr

/-- Conversion of an integer value to a 32-bit `int` (two's complement). -/
def toInt32 (x : Int) : Int := (x + 2 ^ 31) % 2 ^ 32 - 2 ^ 31

/-- The function `AESGCMEncryptFactory::getReturnType`; `stringLength` is
`argTypes.getColumnType(0).getStringLength()`, and the sum, a `long`, is handed to
the 32-bit length argument of `addVarbinary`. -/
def AESGCMEncryptFactory.getReturnType (stringLength : Int) : SizedType :=
  .varbinary (toInt32 (stringLength + AESGCMFunction.overhead))

/-- The function `AESGCMDecryptFactory::getReturnType`; `stringLength` is
`argTypes.getColumnType(0).getStringLength()`. -/
def AESGCMDecryptFactory.getReturnType (stringLength : Int) : SizedType :=
  let length := toInt32 (stringLength - AESGCMFunction.overhead)
  .varchar (if length > 0 then length else 1)

/-! ## Key loading -/

/-- Whitespace of the "C" locale, which formatted stream extraction skips and stops at:
space, tab, line feed, vertical tab, form feed, carriage return. -/
def isspace (c : Nat) : Bool := c = 32 || (9 ≤ c && c ≤ 13)

/-- The formatted extraction `key_file >> std::setw(width) >> key_hex` of the C++
library on the content of an opened file: leading whitespace is skipped, then at most
`width - 1` characters are taken up to the next whitespace or the end of the file;
taking no character fails the stream (`none`). -/
def extractWord (width : Nat) (content : Bytes) : Option Bytes :=
  let word := ((content.dropWhile isspace).takeWhile (fun c => !isspace c)).take (width - 1)
  if word = [] then none else some word

/-- The value of a hexadecimal digit character `0-9`, `A-F`, `a-f`. -/
def hexDigit (c : Nat) : Option Nat :=
  if 48 ≤ c ∧ c ≤ 57 then some (c - 48)
  else if 65 ≤ c ∧ c ≤ 70 then some (c - 55)
  else if 97 ≤ c ∧ c ≤ 102 then some (c - 87)
  else none

/-- The parsing loop of libsodium's `sodium_hex2bin` with `ignore = NULL` over the
characters still to read: it stops at the first character that is no hexadecimal digit,
and it stops with `ret = -1` at a digit when `bin_maxlen` bytes are already written.
The result is `ret`, the bytes written, `hex_pos`, and whether half a byte is pending
(`state != 0`). -/
def sodium_hex2bin_loop (bin_maxlen : Nat) :
    Bytes → Bytes → Nat → Option Nat → Int × Bytes × Nat × Bool
  | [], bin, hex_pos, c_acc => (0, bin, hex_pos, c_acc.isSome)
  | c :: cs, bin, hex_pos, c_acc =>
    match hexDigit c with
    | none => (0, bin, hex_pos, c_acc.isSome)
    | some c_val =>
      if bin.length ≥ bin_maxlen then (-1, bin, hex_pos, c_acc.isSome)
      else
        match c_acc with
        | none => sodium_hex2bin_loop bin_maxlen cs bin (hex_pos + 1) (some (c_val * 16))
        | some acc => sodium_hex2bin_loop bin_maxlen cs (bin ++ [acc + c_val]) (hex_pos + 1) none

/-- The call `sodium_hex2bin(bin, bin_maxlen, hex, hex_len, NULL, NULL, NULL)` of
libsodium (a library function, not part of the sources): the return code and the bytes
written to `bin`. Two published behaviours are covered. With `checksEnd = false` the
function is as it was when the repository was written: it returns 0 unless more than
`bin_maxlen` bytes would be needed. With `checksEnd = true` it is the later function,
which also returns -1 when parsing did not reach `hex_len` (no `hex_end` pointer is
given) or when half a byte is pending. -/
def sodium_hex2bin (checksEnd : Bool) (bin_maxlen : Nat) (hex : Bytes) (hex_len : Nat) :
    Int × Bytes :=
  let run := sodium_hex2bin_loop bin_maxlen (hex.take hex_len) [] 0 none
  let ret := run.1
  let hex_pos := if run.2.2.2 then run.2.2.1 - 1 else run.2.2.1
  if checksEnd then
    let ret := if run.2.2.2 then -1 else ret
    let ret := if hex_pos ≠ hex_len then -1 else ret
    (ret, run.2.1)
  else
    (ret, run.2.1)

/-- The function `readKeyFile`; `file` is the content of the file at `key_path`, or
`none` when it cannot be opened. The result is the value returned and the bytes written
to `key_out`. The array `key_hex` holds the extracted word, its terminating zero, and
zeros here for the bytes after it. -/
def readKeyFile (checksEnd : Bool) (file : Option Bytes) : Bool × Bytes :=
  let key_hex_length := crypto_aead_aes256gcm_KEYBYTES * 2 + 1
  match file with
  | none => (false, [])
  | some content =>
    match extractWord key_hex_length content with
    | none => (false, [])
    | some word =>
      let key_hex := word ++ List.replicate (key_hex_length - word.length) 0
      let r := sodium_hex2bin checksEnd crypto_aead_aes256gcm_KEYBYTES key_hex key_hex_length
      (r.1 == 0, r.2)

/-- The function `AESGCMFunction::setup`: `columnNames` are the names of the argument
columns, `keyParam` the value of the parameter "key" when it is given, `files` the
content of the file at a path when it can be opened, `available` the answer of
`crypto_aead_aes256gcm_is_available()`. -/
def AESGCMFunction.setup {Ctx : Type} (prim : Aes256Gcm Ctx) (checksEnd : Bool)
    (available : Bool) (files : String → Option Bytes) (keyParam : Option String)
    (columnNames : List String) : Except Error (AESGCMFunction Ctx) :=
  if columnNames.length < 1 || columnNames.length > 2 then
    .error (.arity columnNames.length)
  else
    match keyParam with
    | none => .error .missingKeyParameter
    | some key_path =>
      let key := readKeyFile checksEnd (files key_path)
      if !key.1 then .error (.keyFile key_path)
      else if !available then .error .unavailable
      else .ok { crypto_ctx := prim.beforenm key.2, column_name := columnNames.getD 0 "" }

/-! ## Definitions used to state the properties -/

/-- Decoding of a string of hexadecimal digits, two digits per byte, high digit
first. -/
def decodeHex : Bytes → Bytes
  | hi :: lo :: rest => ((hexDigit hi).getD 0 * 16 + (hexDigit lo).getD 0) :: decodeHex rest
  | _ => []

/-- The byte string `bs` with bit `b` of byte `i` flipped. -/
def flipBit (bs : Bytes) (i b : Nat) : Bytes :=
  bs.set i (if bs.getD i 0 / 2 ^ b % 2 = 0 then bs.getD i 0 + 2 ^ b else bs.getD i 0 - 2 ^ b)

/-- The rows of a block with column 0 replaced, row by row, by the given values (the
values of a result column put in place of the primary input). -/
def withColumn0 : List Row → List (Option Bytes) → List Row
  | r :: rs, v :: vs => r.set 0 v :: withColumn0 rs vs
  | _, _ => []

/-- The reader of a block whose column 0 holds the given values instead. -/
def BlockReader.withColumn0 (rd : BlockReader) (vs : List (Option Bytes)) : BlockReader :=
  { numCols := rd.numCols, row := rd.row.set 0 (vs.headD none),
    more := VerticaAesGcm.withColumn0 rd.more vs.tail }

/-- The non-null values of a result column, in row order. -/
def nonNull (vs : List (Option Bytes)) : List Bytes := vs.filterMap id

/-- The first 12 bytes of an envelope. -/
def nonceOf (envelope : Bytes) : Bytes := envelope.take crypto_aead_aes256gcm_NPUBBYTES

/-- A stand-in for the primitive with the interface properties of AES-256-GCM, used to
instantiate the theorems: the ciphertext is the message followed by a 16-byte tag whose
first byte is the sum modulo 256 of message, associated data, nonce and key; decryption
returns -1 unless the tag is the one of the received message. -/
def checksumTag (m : Bytes) (ad : Option Bytes) (npub key : Bytes) : Bytes :=
  (m ++ ad.getD [] ++ npub ++ key).sum % 256 :: List.replicate 15 0

/-- The stand-in primitive built on `checksumTag`. -/
def checksumAead : Aes256Gcm Bytes where
  beforenm := id
  encrypt_afternm := fun m ad npub key => m ++ checksumTag m ad npub key
  decrypt_afternm := fun c ad npub key =>
    if 16 ≤ c.length ∧ c.drop (c.length - 16) = checksumTag (c.take (c.length - 16)) ad npub key
    then (0, c.take (c.length - 16)) else (-1, [])

/-- Modelled from the spec: the property of the AES-256-GCM primitive (libsodium,
missing from the sources) that the round trip rests on. For a 12-byte nonce, the
ciphertext with tag is 16 bytes longer than the message, and decryption with the same
context, nonce and associated data returns 0 and gives the message back. -/
def Aes256Gcm.Inverts {Ctx : Type} (prim : Aes256Gcm Ctx) (ctx : Ctx) : Prop :=
  ∀ (m : Bytes) (ad : Option Bytes) (npub : Bytes),
    npub.length = crypto_aead_aes256gcm_NPUBBYTES →
    (prim.encrypt_afternm m ad npub ctx).length = m.length + crypto_aead_aes256gcm_ABYTES ∧
    prim.decrypt_afternm (prim.encrypt_afternm m ad npub ctx) ad npub ctx = (0, m)

/-- Modelled from the spec: the authentication property of the AES-256-GCM primitive
(libsodium, missing from the sources), "any tampering with ciphertext, AD, or nonce must
be detected and rejected", for the single-bit changes of one encryption: decryption
returns -1 (verification failure) when, with everything else as at encryption, one bit
of the nonce, or of the ciphertext with tag, or of the associated data (when there is
any) is flipped. -/
def Aes256Gcm.RejectsBitFlips {Ctx : Type} (prim : Aes256Gcm Ctx) (ctx : Ctx)
    (m : Bytes) (ad : Option Bytes) (npub : Bytes) : Prop :=
  (∀ i, i < npub.length → ∀ b, b < 8 →
    (prim.decrypt_afternm (prim.encrypt_afternm m ad npub ctx) ad (flipBit npub i b) ctx).1
      = -1) ∧
  (∀ i, i < (prim.encrypt_afternm m ad npub ctx).length → ∀ b, b < 8 →
    (prim.decrypt_afternm (flipBit (prim.encrypt_afternm m ad npub ctx) i b) ad npub ctx).1
      = -1) ∧
  (∀ i, i < (ad.getD []).length → ∀ b, b < 8 →
    (prim.decrypt_afternm (prim.encrypt_afternm m ad npub ctx)
      (some (flipBit (ad.getD []) i b)) npub ctx).1 = -1)

instance {Ctx : Type} (prim : Aes256Gcm Ctx) (ctx : Ctx) (m : Bytes) (ad : Option Bytes)
    (npub : Bytes) : Decidable (prim.RejectsBitFlips ctx m ad npub) := by
  unfold Aes256Gcm.RejectsBitFlips; exact inferInstance

/-! ## Buffers: lemmas -/

theorem length_alloc (n : Nat) : (alloc n).length = n := by
  simp [alloc]

theorem length_writeAt (buf : Bytes) (off : Nat) (data : Bytes) :
    (writeAt buf off data).length = buf.length := by
  simp only [writeAt, List.length_take, List.length_append, List.length_drop]
  omega

theorem writeAt_alloc_zero (n : Nat) (d : Bytes) (h : d.length ≤ n) :
    writeAt (alloc n) 0 d = d ++ List.replicate (n - d.length) 0 := by
  unfold writeAt alloc
  simp only [List.take_zero, List.nil_append, Nat.zero_add, List.drop_replicate,
    List.length_replicate]
  apply List.take_of_length_le
  simp; omega

theorem writeAt_append (p q d : Bytes) (h : d.length = q.length) :
    writeAt (p ++ q) p.length d = p ++ d := by
  unfold writeAt
  have h1 : (p ++ q).drop (p.length + d.length) = [] := by
    apply List.drop_of_length_le; simp; omega
  rw [h1, List.take_left' rfl, List.append_nil]
  apply List.take_of_length_le
  simp; omega

/-- The envelope buffer after both writes: nonce, then the output of the primitive. -/
theorem envelope_eq (nonce c : Bytes) (L : Nat)
    (hn : nonce.length = crypto_aead_aes256gcm_NPUBBYTES)
    (hc : c.length = L + crypto_aead_aes256gcm_ABYTES) :
    writeAt (writeAt (alloc (L + AESGCMFunction.overhead)) 0
      (nonce.take crypto_aead_aes256gcm_NPUBBYTES)) crypto_aead_aes256gcm_NPUBBYTES c
      = nonce ++ c := by
  have h1 : nonce.take crypto_aead_aes256gcm_NPUBBYTES = nonce := by
    rw [← hn]; exact List.take_length nonce
  rw [h1, writeAt_alloc_zero _ _ (by rw [hn]; unfold AESGCMFunction.overhead; omega), ← hn]
  apply writeAt_append
  simp only [List.length_replicate, hc, hn, AESGCMFunction.overhead]
  omega

/-- The first 12 bytes of the envelope buffer are the nonce, whatever the primitive
writes behind them. -/
theorem envelope_take (nonce c : Bytes) (L : Nat)
    (hn : nonce.length = crypto_aead_aes256gcm_NPUBBYTES) :
    (writeAt (writeAt (alloc (L + AESGCMFunction.overhead)) 0
      (nonce.take crypto_aead_aes256gcm_NPUBBYTES)) crypto_aead_aes256gcm_NPUBBYTES c).take
      crypto_aead_aes256gcm_NPUBBYTES = nonce := by
  have h1 : nonce.take crypto_aead_aes256gcm_NPUBBYTES = nonce := by
    rw [← hn]; exact List.take_length nonce
  rw [h1, writeAt_alloc_zero _ _ (by rw [hn]; unfold AESGCMFunction.overhead; omega)]
  unfold writeAt
  rw [List.take_take, List.append_assoc, List.take_append_of_le_length (by simp)]
  rw [List.take_take, List.take_append_of_le_length (by omega)]
  apply List.take_of_length_le
  simp only [List.length_append, List.length_replicate, hn, AESGCMFunction.overhead]
  omega

/-! ## Rows: lemmas -/

theorem associatedData_set0 (numCols : Nat) (r : Row) (v : Option Bytes) :
    associatedData numCols (r.set 0 v) = associatedData numCols r := by
  cases r with
  | nil => rfl
  | cons c rest => simp [associatedData, Row.isNull, Row.getStringRef, List.getD]

theorem encrypt_row_null {Ctx : Type} (prim : Aes256Gcm Ctx) (f : AESGCMFunction Ctx)
    (numCols : Nat) (nonce : Bytes) (r : Row) (h : r.isNull 0 = true) :
    AESGCMEncrypt.processRow prim f numCols nonce r = (none, [], nonce) := by
  simp [AESGCMEncrypt.processRow, h]

theorem encrypt_row_some {Ctx : Type} (prim : Aes256Gcm Ctx) (f : AESGCMFunction Ctx)
    (numCols : Nat) (nonce p : Bytes) (rest : Row) :
    AESGCMEncrypt.processRow prim f numCols nonce (some p :: rest) =
      (some (writeAt (writeAt (alloc (p.length + AESGCMFunction.overhead)) 0
          (nonce.take crypto_aead_aes256gcm_NPUBBYTES)) crypto_aead_aes256gcm_NPUBBYTES
          (prim.encrypt_afternm p (associatedData numCols (some p :: rest)).1 nonce
            f.crypto_ctx)),
        [Event.getStringRef 0] ++ (associatedData numCols (some p :: rest)).2 ++
          [Event.encryptCall p (associatedData numCols (some p :: rest)).1 nonce,
            Event.increment],
        sodium_increment nonce crypto_aead_aes256gcm_NPUBBYTES) := by
  simp [AESGCMEncrypt.processRow, Row.isNull, Row.getStringRef, List.getD]

theorem isNull_zero_cases (r : Row) :
    (r.isNull 0 = true ∧ r.getD 0 none = none) ∨ ∃ p rest, r = some p :: rest := by
  cases r with
  | nil => left; simp [Row.isNull]
  | cons c rest =>
    cases c with
    | none => left; simp [Row.isNull]
    | some p => right; exact ⟨p, rest, rfl⟩

theorem decrypt_row_null {Ctx : Type} (prim : Aes256Gcm Ctx) (f : AESGCMFunction Ctx)
    (numCols : Nat) (r : Row) (h : r.isNull 0 = true) :
    AESGCMDecrypt.processRow prim f numCols r = ⟨.ok none, []⟩ := by
  simp [AESGCMDecrypt.processRow, h]

/-- Decrypting, in the same row, the envelope the encryption step wrote gives the primary
value of the row back. -/
theorem decrypt_encrypt_row {Ctx : Type} (prim : Aes256Gcm Ctx) (f : AESGCMFunction Ctx)
    (hprim : prim.Inverts f.crypto_ctx) (numCols : Nat) (nonce : Bytes)
    (hn : nonce.length = crypto_aead_aes256gcm_NPUBBYTES) (r : Row) :
    (AESGCMDecrypt.processRow prim f numCols
      (r.set 0 (AESGCMEncrypt.processRow prim f numCols nonce r).1)).result
      = .ok (r.getD 0 none) := by
  rcases isNull_zero_cases r with ⟨hnull, hcol⟩ | ⟨p, rest, rfl⟩
  · rw [encrypt_row_null prim f numCols nonce r hnull, hcol]
    rw [decrypt_row_null]
    cases r with
    | nil => rfl
    | cons c rest => simp [Row.isNull]
  · rw [encrypt_row_some]
    obtain ⟨hlen, hdec⟩ := hprim p (associatedData numCols (some p :: rest)).1 nonce hn
    rw [envelope_eq nonce _ p.length hn hlen]
    have had := associatedData_set0 numCols (some p :: rest)
      (some (nonce ++ prim.encrypt_afternm p (associatedData numCols (some p :: rest)).1 nonce
        f.crypto_ctx))
    simp only [List.set_cons_zero] at had ⊢
    unfold AESGCMDecrypt.processRow
    simp only [had]
    simp only [Row.isNull, Row.getStringRef, List.getD_cons_zero, Option.isNone_some,
      Option.getD_some, List.length_append, hn, hlen]
    have hov : ¬ (crypto_aead_aes256gcm_NPUBBYTES + (p.length + crypto_aead_aes256gcm_ABYTES)
        < AESGCMFunction.overhead) := by
      unfold AESGCMFunction.overhead; omega
    have ht : (nonce ++ prim.encrypt_afternm p (associatedData numCols (some p :: rest)).1
        nonce f.crypto_ctx).take crypto_aead_aes256gcm_NPUBBYTES = nonce := by
      rw [← hn]; exact List.take_left' rfl
    have hd : ((nonce ++ prim.encrypt_afternm p (associatedData numCols (some p :: rest)).1
        nonce f.crypto_ctx).drop crypto_aead_aes256gcm_NPUBBYTES).take
        (crypto_aead_aes256gcm_NPUBBYTES + (p.length + crypto_aead_aes256gcm_ABYTES) -
          crypto_aead_aes256gcm_NPUBBYTES)
        = prim.encrypt_afternm p (associatedData numCols (some p :: rest)).1 nonce
            f.crypto_ctx := by
      rw [← hn, List.drop_left' rfl]
      apply List.take_of_length_le
      rw [hlen]; omega
    rw [ht, hd, hdec]
    simp only [hov, if_false, Bool.false_eq_true]
    rw [writeAt_alloc_zero _ _ (by unfold AESGCMFunction.overhead; omega)]
    have h0 : crypto_aead_aes256gcm_NPUBBYTES + (p.length + crypto_aead_aes256gcm_ABYTES) -
        AESGCMFunction.overhead - p.length = 0 := by
      unfold AESGCMFunction.overhead; omega
    rw [h0]; simp

/-! ## The nonce counter: lemmas -/

theorem length_sodium_increment_loop (bs : Bytes) :
    ∀ c, (sodium_increment_loop c bs).length = bs.length := by
  induction bs with
  | nil => intro c; rfl
  | cons b bs ih => intro c; simp [sodium_increment_loop, ih]

theorem length_sodium_increment (n : Bytes) (nlen : Nat) :
    (sodium_increment n nlen).length = n.length := by
  simp only [sodium_increment, List.length_append, length_sodium_increment_loop,
    List.length_take, List.length_drop]
  omega

theorem length_nonce_after {Ctx : Type} (prim : Aes256Gcm Ctx) (f : AESGCMFunction Ctx)
    (numCols : Nat) (nonce : Bytes) (r : Row) :
    (AESGCMEncrypt.processRow prim f numCols nonce r).2.2.length = nonce.length := by
  unfold AESGCMEncrypt.processRow
  split
  · rfl
  · exact length_sodium_increment _ _

/-! ## Blocks: lemmas -/

theorem length_encrypt_loop {Ctx : Type} (prim : Aes256Gcm Ctx) (f : AESGCMFunction Ctx)
    (numCols : Nat) (rows : List Row) :
    ∀ nonce, (AESGCMEncrypt.loop prim f numCols nonce rows).1.length = rows.length := by
  induction rows with
  | nil => intro nonce; rfl
  | cons r rs ih => intro nonce; simp [AESGCMEncrypt.loop, ih]

theorem decrypt_encrypt_loop {Ctx : Type} (prim : Aes256Gcm Ctx) (f : AESGCMFunction Ctx)
    (hprim : prim.Inverts f.crypto_ctx) (numCols : Nat) (rows : List Row) :
    ∀ nonce, nonce.length = crypto_aead_aes256gcm_NPUBBYTES →
      (AESGCMDecrypt.loop prim f numCols
        (withColumn0 rows (AESGCMEncrypt.loop prim f numCols nonce rows).1)).result
        = .ok (rows.map (fun r => r.getD 0 none)) := by
  induction rows with
  | nil => intro nonce _; rfl
  | cons r rs ih =>
    intro nonce hn
    have hrow := decrypt_encrypt_row prim f hprim numCols nonce hn r
    have hrest := ih (AESGCMEncrypt.processRow prim f numCols nonce r).2.2
      (by rw [length_nonce_after]; exact hn)
    simp only [AESGCMEncrypt.loop, withColumn0, AESGCMDecrypt.loop, List.map_cons]
    rw [hrow]
    simp only [hrest]

theorem rows_withColumn0 (rd : BlockReader) (v : Option Bytes) (vs : List (Option Bytes)) :
    (rd.withColumn0 (v :: vs)).rows = withColumn0 rd.rows (v :: vs) := by
  simp [BlockReader.withColumn0, BlockReader.rows, withColumn0]

theorem checksumAead_inverts (key : Bytes) : checksumAead.Inverts key := by
  intro m ad npub _
  constructor
  · simp [checksumAead, checksumTag, crypto_aead_aes256gcm_ABYTES]
  · have hl : (m ++ checksumTag m ad npub key).length - 16 = m.length := by
      simp [checksumTag]
    simp only [checksumAead, hl, List.take_left' rfl, List.drop_left' rfl]
    simp [checksumTag]

theorem encrypt_block_eq {Ctx : Type} (prim : Aes256Gcm Ctx) (f : AESGCMFunction Ctx)
    (seed : Bytes) (rd : BlockReader) (hcols : rd.numCols = 1 ∨ rd.numCols = 2) :
    AESGCMEncrypt.processBlock prim f seed rd =
      ⟨.ok (AESGCMEncrypt.loop prim f rd.numCols seed rd.rows).1,
        Event.randombytes :: (AESGCMEncrypt.loop prim f rd.numCols seed rd.rows).2⟩ := by
  unfold AESGCMEncrypt.processBlock
  rw [if_neg]
  rcases hcols with h | h <;> simp [h]

theorem decrypt_block_eq {Ctx : Type} (prim : Aes256Gcm Ctx) (f : AESGCMFunction Ctx)
    (rd : BlockReader) (hcols : rd.numCols = 1 ∨ rd.numCols = 2) :
    AESGCMDecrypt.processBlock prim f rd = AESGCMDecrypt.loop prim f rd.numCols rd.rows := by
  unfold AESGCMDecrypt.processBlock
  rw [if_neg]
  rcases hcols with h | h <;> simp [h]

/-! ## C1: round trip -/

/-- C1. Round trip of a whole block: for every key context, starting nonce and block of
rows with one or two argument columns (any plaintexts, the empty one included, NULL
rows, and associated data absent, NULL, empty or any bytes), `AESGCMEncrypt::processBlock`
returns one value per row, and `AESGCMDecrypt::processBlock`, run with the same key
context on the same rows with these values in column 0 and the same associated data,
returns exactly the primary values of the rows. The primitive is abstract; it is assumed
to return a ciphertext 16 bytes longer than the message and to invert its encryption for
equal context, nonce and associated data. -/
theorem C1_roundtrip {Ctx : Type} (prim : Aes256Gcm Ctx) (f : AESGCMFunction Ctx)
    (seed : Bytes) (arg_reader : BlockReader)
    (hprim : prim.Inverts f.crypto_ctx)
    (hseed : seed.length = crypto_aead_aes256gcm_NPUBBYTES)
    (hcols : arg_reader.numCols = 1 ∨ arg_reader.numCols = 2) :
    ∃ envelopes : List (Option Bytes),
      (AESGCMEncrypt.processBlock prim f seed arg_reader).result = .ok envelopes ∧
      envelopes.length = arg_reader.rows.length ∧
      (AESGCMDecrypt.processBlock prim f (arg_reader.withColumn0 envelopes)).result
        = .ok (arg_reader.rows.map (fun r => r.getD 0 none)) := by
  refine ⟨(AESGCMEncrypt.loop prim f arg_reader.numCols seed arg_reader.rows).1, ?_, ?_, ?_⟩
  · rw [encrypt_block_eq prim f seed arg_reader hcols]
  · exact length_encrypt_loop prim f _ _ seed
  · have hloop := decrypt_encrypt_loop prim f hprim arg_reader.numCols arg_reader.rows seed hseed
    have hlen := length_encrypt_loop prim f arg_reader.numCols arg_reader.rows seed
    generalize (AESGCMEncrypt.loop prim f arg_reader.numCols seed arg_reader.rows).1 = vs
      at hloop hlen ⊢
    cases vs with
    | nil => simp [BlockReader.rows] at hlen
    | cons v vs =>
      rw [decrypt_block_eq prim f (arg_reader.withColumn0 (v :: vs)) hcols, rows_withColumn0]
      exact hloop

/-- Instance: two argument columns, the rows ("hello", "k"), NULL and
("", NULL), the stand-in primitive. -/
theorem C1_roundtrip_witness :
    checksumAead.Inverts [7] ∧
    [255, 255, 255, 255, 255, 255, 255, 255, 255, 255, 255, 255].length
      = crypto_aead_aes256gcm_NPUBBYTES ∧
    ((2 : Nat) = 1 ∨ (2 : Nat) = 2) ∧
    ∃ envelopes : List (Option Bytes),
      (AESGCMEncrypt.processBlock checksumAead ⟨[7], "c"⟩
        [255, 255, 255, 255, 255, 255, 255, 255, 255, 255, 255, 255]
        ⟨2, [some [104, 101, 108, 108, 111], some [107]], [[none, some [107]], [some [], none]]⟩).result
        = .ok envelopes ∧
      envelopes.length = 3 ∧
      (AESGCMDecrypt.processBlock checksumAead ⟨[7], "c"⟩
        (BlockReader.withColumn0
          ⟨2, [some [104, 101, 108, 108, 111], some [107]], [[none, some [107]], [some [], none]]⟩
          envelopes)).result
        = .ok [some [104, 101, 108, 108, 111], none, some []] :=
  ⟨checksumAead_inverts [7], by decide, by decide,
    C1_roundtrip checksumAead ⟨[7], "c"⟩ [255, 255, 255, 255, 255, 255, 255, 255, 255, 255, 255, 255]
      ⟨2, [some [104, 101, 108, 108, 111], some [107]], [[none, some [107]], [some [], none]]⟩
      (checksumAead_inverts [7]) (by decide) (by decide)⟩

/-! ## The nonce counter as a number -/

theorem leValue_sodium_increment_loop (bs : Bytes) :
    ∀ c, leValue (sodium_increment_loop c bs) = (leValue bs + c) % 256 ^ bs.length := by
  induction bs with
  | nil => intro c; simp [sodium_increment_loop, leValue, Nat.mod_one]
  | cons b bs ih =>
    intro c
    simp only [sodium_increment_loop, leValue, ih, List.length_cons, pow_succ]
    rw [Nat.mul_comm (256 ^ bs.length) 256, Nat.mod_mul]
    have h1 : (b + 256 * leValue bs + c) % 256 = (c + b) % 256 := by omega
    have h2 : (b + 256 * leValue bs + c) / 256 = leValue bs + (c + b) / 256 := by omega
    rw [h1, h2]

theorem lt_of_mem_sodium_increment_loop (bs : Bytes) :
    ∀ c, ∀ x ∈ sodium_increment_loop c bs, x < 256 := by
  induction bs with
  | nil => intro c x hx; simp [sodium_increment_loop] at hx
  | cons b bs ih =>
    intro c x hx
    simp only [sodium_increment_loop, List.mem_cons] at hx
    rcases hx with rfl | hx
    · exact Nat.mod_lt _ (by norm_num)
    · exact ih _ x hx

theorem sodium_increment_of_length (n : Bytes) (h : n.length = crypto_aead_aes256gcm_NPUBBYTES) :
    sodium_increment n crypto_aead_aes256gcm_NPUBBYTES = sodium_increment_loop 1 n := by
  unfold sodium_increment
  rw [← h, List.take_length, List.drop_length, List.append_nil]

theorem isNonce_sodium_increment (n : Bytes) (h : IsNonce n) :
    IsNonce (sodium_increment n crypto_aead_aes256gcm_NPUBBYTES) := by
  refine ⟨?_, ?_⟩
  · rw [length_sodium_increment]; exact h.1
  · rw [sodium_increment_of_length n h.1]
    exact lt_of_mem_sodium_increment_loop n 1

theorem leValue_sodium_increment (n : Bytes) (h : IsNonce n) :
    leValue (sodium_increment n crypto_aead_aes256gcm_NPUBBYTES) = (leValue n + 1) % 2 ^ 96 := by
  rw [sodium_increment_of_length n h.1, leValue_sodium_increment_loop, h.1]
  norm_num [crypto_aead_aes256gcm_NPUBBYTES]

/-- The nonce array after a row step: unchanged for a NULL primary value, incremented
otherwise. -/
theorem nonce_after_row {Ctx : Type} (prim : Aes256Gcm Ctx) (f : AESGCMFunction Ctx)
    (numCols : Nat) (nonce : Bytes) (r : Row) :
    (AESGCMEncrypt.processRow prim f numCols nonce r).2.2 =
      if r.isNull 0 then nonce else sodium_increment nonce crypto_aead_aes256gcm_NPUBBYTES := by
  unfold AESGCMEncrypt.processRow
  split <;> rfl

theorem leValue_lt (bs : Bytes) (h : ∀ b ∈ bs, b < 256) : leValue bs < 256 ^ bs.length := by
  induction bs with
  | nil => simp [leValue]
  | cons b bs ih =>
    have hb : b < 256 := h b (List.mem_cons_self _ _)
    have hbs := ih (fun x hx => h x (List.mem_cons_of_mem _ hx))
    simp only [leValue, List.length_cons, pow_succ]
    omega

theorem leValue_nonce_lt (n : Bytes) (h : IsNonce n) : leValue n < 2 ^ 96 := by
  have := leValue_lt n h.2
  rw [h.1] at this
  norm_num [crypto_aead_aes256gcm_NPUBBYTES] at this
  omega

theorem nonNull_none (vs : List (Option Bytes)) : nonNull (none :: vs) = nonNull vs := rfl

theorem nonNull_some (v : Bytes) (vs : List (Option Bytes)) :
    nonNull (some v :: vs) = v :: nonNull vs := rfl

/-- The little-endian values of the nonces in front of the envelopes of a run of the
loop: the value of the starting nonce plus 0, 1, 2, ... modulo 2^96. -/
theorem nonces_encrypt_loop {Ctx : Type} (prim : Aes256Gcm Ctx) (f : AESGCMFunction Ctx)
    (numCols : Nat) (rows : List Row) :
    ∀ nonce, IsNonce nonce →
      (nonNull (AESGCMEncrypt.loop prim f numCols nonce rows).1).map
          (fun e => leValue (nonceOf e))
        = (List.range (rows.filter (fun r => !r.isNull 0)).length).map
            (fun k => (leValue nonce + k) % 2 ^ 96) := by
  induction rows with
  | nil => intro nonce _; rfl
  | cons r rs ih =>
    intro nonce hn
    rcases isNull_zero_cases r with ⟨hnull, _⟩ | ⟨p, rest, rfl⟩
    · simp only [AESGCMEncrypt.loop, encrypt_row_null prim f numCols nonce r hnull, nonNull_none,
        List.filter_cons, hnull, Bool.not_true, Bool.false_eq_true, if_false]
      exact ih nonce hn
    · have hnn : Row.isNull (some p :: rest) 0 = false := by simp [Row.isNull]
      simp only [AESGCMEncrypt.loop, encrypt_row_some, nonNull_some,
        List.filter_cons, hnn, Bool.not_false, if_true, List.length_cons, List.map_cons,
        List.range_succ_eq_map, nonceOf, envelope_take nonce _ p.length hn.1]
      have hih := ih (sodium_increment nonce crypto_aead_aes256gcm_NPUBBYTES)
        (isNonce_sodium_increment nonce hn)
      simp only [nonceOf] at hih
      rw [hih, leValue_sodium_increment nonce hn, List.map_map]
      have hlt := leValue_nonce_lt nonce hn
      congr 1
      · rw [Nat.add_zero, Nat.mod_eq_of_lt hlt]
      · apply List.map_congr_left
        intro k _
        simp only [Function.comp, Nat.succ_eq_add_one]
        omega

theorem count_encrypt_loop {Ctx : Type} (prim : Aes256Gcm Ctx) (f : AESGCMFunction Ctx)
    (numCols : Nat) (rows : List Row) :
    ∀ nonce, (nonNull (AESGCMEncrypt.loop prim f numCols nonce rows).1).length
        = (rows.filter (fun r => !r.isNull 0)).length := by
  induction rows with
  | nil => intro nonce; rfl
  | cons r rs ih =>
    intro nonce
    rcases isNull_zero_cases r with ⟨hnull, _⟩ | ⟨p, rest, rfl⟩
    · simp only [AESGCMEncrypt.loop, encrypt_row_null prim f numCols nonce r hnull, nonNull_none,
        List.filter_cons, hnull, Bool.not_true, Bool.false_eq_true, if_false]
      exact ih nonce
    · have hnn : Row.isNull (some p :: rest) 0 = false := by simp [Row.isNull]
      simp only [AESGCMEncrypt.loop, encrypt_row_some, nonNull_some,
        List.filter_cons, hnn, Bool.not_false, if_true, List.length_cons]
      rw [ih (sodium_increment nonce crypto_aead_aes256gcm_NPUBBYTES)]

theorem nodup_counter (v N : Nat) (hN : N ≤ 2 ^ 96) :
    ((List.range N).map (fun k => (v + k) % 2 ^ 96)).Nodup := by
  apply List.Nodup.map_on _ (List.nodup_range N)
  intro a ha b hb hab
  rw [List.mem_range] at ha hb
  have h1 : a ≡ b [MOD 2 ^ 96] := Nat.ModEq.add_left_cancel' v hab
  exact Nat.ModEq.eq_of_lt_of_lt h1 (by omega) (by omega)

theorem isNonce_nonces_encrypt_loop {Ctx : Type} (prim : Aes256Gcm Ctx) (f : AESGCMFunction Ctx)
    (numCols : Nat) (rows : List Row) :
    ∀ nonce, IsNonce nonce →
      ∀ e ∈ nonNull (AESGCMEncrypt.loop prim f numCols nonce rows).1, IsNonce (nonceOf e) := by
  induction rows with
  | nil => intro nonce _ e he; simp [AESGCMEncrypt.loop, nonNull] at he
  | cons r rs ih =>
    intro nonce hn e he
    rcases isNull_zero_cases r with ⟨hnull, _⟩ | ⟨p, rest, rfl⟩
    · simp only [AESGCMEncrypt.loop, encrypt_row_null prim f numCols nonce r hnull,
        nonNull_none] at he
      exact ih nonce hn e he
    · simp only [AESGCMEncrypt.loop, encrypt_row_some, nonNull_some, List.mem_cons] at he
      rcases he with rfl | he
      · simp only [nonceOf, envelope_take nonce _ p.length hn.1]
        exact hn
      · exact ih _ (isNonce_sodium_increment nonce hn) e he

theorem decrypt_row_trace {Ctx : Type} (prim : Aes256Gcm Ctx) (f : AESGCMFunction Ctx)
    (numCols : Nat) (r : Row) :
    ∀ e ∈ (AESGCMDecrypt.processRow prim f numCols r).trace,
      e ≠ Event.randombytes ∧ e ≠ Event.increment := by
  intro e he
  have had : ∀ x ∈ (associatedData numCols r).2, x = Event.getStringRef 1 := by
    intro x hx
    unfold associatedData at hx
    split at hx <;> simp at hx
    exact hx
  unfold AESGCMDecrypt.processRow at he
  split at he
  · simp at he
  · simp only at he
    split at he
    · simp only [List.mem_append, List.mem_singleton] at he
      rcases he with rfl | he
      · simp
      · rw [had e he]; simp
    · have hmem : e = Event.getStringRef 0 ∨ e ∈ (associatedData numCols r).2 ∨
          ∃ c a n, e = Event.decryptCall c a n := by
        split at he
        · simp only [List.mem_append, List.mem_singleton] at he
          rcases he with (h | h) | h
          · exact Or.inl h
          · exact Or.inr (Or.inl h)
          · exact Or.inr (Or.inr ⟨_, _, _, h⟩)
        · split at he
          · simp only [List.mem_append, List.mem_singleton] at he
            rcases he with (h | h) | h
            · exact Or.inl h
            · exact Or.inr (Or.inl h)
            · exact Or.inr (Or.inr ⟨_, _, _, h⟩)
          · simp only [List.mem_append, List.mem_singleton] at he
            rcases he with (h | h) | h
            · exact Or.inl h
            · exact Or.inr (Or.inl h)
            · exact Or.inr (Or.inr ⟨_, _, _, h⟩)
      rcases hmem with rfl | h | ⟨c, a, n, rfl⟩
      · simp
      · rw [had e h]; simp
      · simp

theorem decrypt_loop_trace {Ctx : Type} (prim : Aes256Gcm Ctx) (f : AESGCMFunction Ctx)
    (numCols : Nat) (rows : List Row) :
    ∀ e ∈ (AESGCMDecrypt.loop prim f numCols rows).trace,
      e ≠ Event.randombytes ∧ e ≠ Event.increment := by
  induction rows with
  | nil => intro e he; simp [AESGCMDecrypt.loop] at he
  | cons r rs ih =>
    intro e he
    have hrow := decrypt_row_trace prim f numCols r
    unfold AESGCMDecrypt.loop at he
    simp only at he
    split at he
    · exact hrow e he
    · split at he
      · simp only [List.mem_append] at he
        rcases he with h | h
        · exact hrow e h
        · exact ih e h
      · simp only [List.mem_append] at he
        rcases he with h | h
        · exact hrow e h
        · exact ih e h

theorem decrypt_block_trace {Ctx : Type} (prim : Aes256Gcm Ctx) (f : AESGCMFunction Ctx)
    (rd : BlockReader) :
    ∀ e ∈ (AESGCMDecrypt.processBlock prim f rd).trace,
      e ≠ Event.randombytes ∧ e ≠ Event.increment := by
  intro e he
  unfold AESGCMDecrypt.processBlock at he
  split at he
  · simp at he
  · exact decrypt_loop_trace prim f _ _ e he

/-! ## C3: nonce uniqueness within a batch -/

/-- C3. Nonce uniqueness within a batch: for every starting nonce (12 bytes) and every
block with one or two argument columns whose number N of non-null primary values is at
most 2^96, `AESGCMEncrypt::processBlock` writes N envelopes and the 12-byte nonces in
front of them are pairwise distinct, wherever the NULL rows are and whatever the
plaintexts, the associated data and the primitive are. -/
theorem C3_nonces_pairwise_distinct {Ctx : Type} (prim : Aes256Gcm Ctx) (f : AESGCMFunction Ctx)
    (seed : Bytes) (arg_reader : BlockReader)
    (hseed : IsNonce seed)
    (hcols : arg_reader.numCols = 1 ∨ arg_reader.numCols = 2)
    (hN : (arg_reader.rows.filter (fun r => !r.isNull 0)).length ≤ 2 ^ 96) :
    ∃ envelopes : List (Option Bytes),
      (AESGCMEncrypt.processBlock prim f seed arg_reader).result = .ok envelopes ∧
      (nonNull envelopes).length = (arg_reader.rows.filter (fun r => !r.isNull 0)).length ∧
      ((nonNull envelopes).map nonceOf).Pairwise (fun a b => a ≠ b) := by
  refine ⟨(AESGCMEncrypt.loop prim f arg_reader.numCols seed arg_reader.rows).1, ?_, ?_, ?_⟩
  · rw [encrypt_block_eq prim f seed arg_reader hcols]
  · exact count_encrypt_loop prim f _ _ seed
  · have hvals := nonces_encrypt_loop prim f arg_reader.numCols arg_reader.rows seed hseed
    have hnodup := nodup_counter (leValue seed) _ hN
    rw [← hvals] at hnodup
    have hmap : (nonNull (AESGCMEncrypt.loop prim f arg_reader.numCols seed arg_reader.rows).1).map
        (fun e => leValue (nonceOf e))
        = ((nonNull (AESGCMEncrypt.loop prim f arg_reader.numCols seed arg_reader.rows).1).map
            nonceOf).map leValue := by
      rw [List.map_map]; rfl
    rw [hmap] at hnodup
    exact List.Nodup.of_map leValue hnodup

/-- Instance: the all-0xFF starting nonce, rows
("hello", "k"), NULL, ("", NULL), ("hello", "k"). -/
theorem C3_nonces_pairwise_distinct_witness :
    IsNonce [255, 255, 255, 255, 255, 255, 255, 255, 255, 255, 255, 255] ∧
    ((2 : Nat) = 1 ∨ (2 : Nat) = 2) ∧
    (3 ≤ 2 ^ 96) ∧
    ∃ envelopes : List (Option Bytes),
      (AESGCMEncrypt.processBlock checksumAead ⟨[7], "c"⟩
        [255, 255, 255, 255, 255, 255, 255, 255, 255, 255, 255, 255]
        ⟨2, [some [104, 101, 108, 108, 111], some [107]],
          [[none, some [107]], [some [], none], [some [104, 101, 108, 108, 111], some [107]]]⟩).result
        = .ok envelopes ∧
      (nonNull envelopes).length = 3 ∧
      ((nonNull envelopes).map nonceOf).Pairwise (fun a b => a ≠ b) :=
  ⟨by decide, by decide, by norm_num,
    C3_nonces_pairwise_distinct checksumAead ⟨[7], "c"⟩
      [255, 255, 255, 255, 255, 255, 255, 255, 255, 255, 255, 255]
      ⟨2, [some [104, 101, 108, 108, 111], some [107]],
        [[none, some [107]], [some [], none], [some [104, 101, 108, 108, 111], some [107]]]⟩
      (by decide) (by decide) (by simp [BlockReader.rows, Row.isNull])⟩

/-! ## C9: nonce stepping -/

/-- C9. Nonce stepping: in the loop of `AESGCMEncrypt::processBlock` a row with a NULL
primary input leaves the nonce array as it is and calls no `sodium_increment`; a row with
a non-null primary input replaces it by `sodium_increment` of it, whose little-endian
value is the old value plus one modulo 2^96 (so the all-0xFF nonce becomes the all-zero
nonce; nothing fails); hence the nonces in front of the envelopes of a block are, in row
order, 12-byte strings of little-endian value seed + 0, seed + 1, ... modulo 2^96.
`AESGCMDecrypt::processBlock` never draws a nonce and never increments one. -/
theorem C9_nonce_stepping {Ctx : Type} (prim : Aes256Gcm Ctx) (f : AESGCMFunction Ctx)
    (numCols : Nat) (nonce : Bytes) (r : Row) (seed : Bytes) (arg_reader : BlockReader)
    (hn : IsNonce nonce) (hseed : IsNonce seed)
    (hcols : arg_reader.numCols = 1 ∨ arg_reader.numCols = 2) :
    ((AESGCMEncrypt.processRow prim f numCols nonce r).2.2 =
      if r.isNull 0 then nonce else sodium_increment nonce crypto_aead_aes256gcm_NPUBBYTES) ∧
    (Event.increment ∈ (AESGCMEncrypt.processRow prim f numCols nonce r).2.1 ↔
      r.isNull 0 = false) ∧
    IsNonce (AESGCMEncrypt.processRow prim f numCols nonce r).2.2 ∧
    (leValue (AESGCMEncrypt.processRow prim f numCols nonce r).2.2 =
      if r.isNull 0 then leValue nonce else (leValue nonce + 1) % 2 ^ 96) ∧
    sodium_increment (List.replicate 12 255) crypto_aead_aes256gcm_NPUBBYTES
      = List.replicate 12 0 ∧
    (∃ envelopes : List (Option Bytes),
      (AESGCMEncrypt.processBlock prim f seed arg_reader).result = .ok envelopes ∧
      (nonNull envelopes).map (fun e => leValue (nonceOf e))
        = (List.range (arg_reader.rows.filter (fun r => !r.isNull 0)).length).map
            (fun k => (leValue seed + k) % 2 ^ 96) ∧
      ∀ e ∈ nonNull envelopes, IsNonce (nonceOf e)) ∧
    (∀ e ∈ (AESGCMDecrypt.processBlock prim f arg_reader).trace,
      e ≠ Event.randombytes ∧ e ≠ Event.increment) := by
  have hstep := nonce_after_row prim f numCols nonce r
  refine ⟨hstep, ?_, ?_, ?_, by decide, ?_, decrypt_block_trace prim f arg_reader⟩
  · rcases isNull_zero_cases r with ⟨hnull, _⟩ | ⟨p, rest, rfl⟩
    · simp [encrypt_row_null prim f numCols nonce r hnull, hnull]
    · simp [encrypt_row_some, Row.isNull]
  · rw [hstep]
    split
    · exact hn
    · exact isNonce_sodium_increment nonce hn
  · rw [hstep]
    split
    · rfl
    · exact leValue_sodium_increment nonce hn
  · refine ⟨(AESGCMEncrypt.loop prim f arg_reader.numCols seed arg_reader.rows).1, ?_, ?_, ?_⟩
    · rw [encrypt_block_eq prim f seed arg_reader hcols]
    · exact nonces_encrypt_loop prim f _ _ seed hseed
    · exact isNonce_nonces_encrypt_loop prim f _ _ seed hseed

/-- Instance: a non-null row at the nonce of value 2^96 - 1, and a
block of four rows, one of them NULL, started at the nonce of value 2^96 - 2. -/
theorem C9_nonce_stepping_witness :
    IsNonce [255, 255, 255, 255, 255, 255, 255, 255, 255, 255, 255, 255] ∧
    IsNonce [254, 255, 255, 255, 255, 255, 255, 255, 255, 255, 255, 255] ∧
    ((1 : Nat) = 1 ∨ (1 : Nat) = 2) ∧
    (AESGCMEncrypt.processRow checksumAead ⟨[7], "c"⟩ 1
      [255, 255, 255, 255, 255, 255, 255, 255, 255, 255, 255, 255] [some [104, 105]]).2.2
      = [0, 0, 0, 0, 0, 0, 0, 0, 0, 0, 0, 0] ∧
    ∃ envelopes : List (Option Bytes),
      (AESGCMEncrypt.processBlock checksumAead ⟨[7], "c"⟩
        [254, 255, 255, 255, 255, 255, 255, 255, 255, 255, 255, 255]
        ⟨1, [some [104, 105]], [[none], [some []], [some [104, 105]]]⟩).result = .ok envelopes ∧
      (nonNull envelopes).map (fun e => leValue (nonceOf e)) = [2 ^ 96 - 2, 2 ^ 96 - 1, 0] :=
  have h := C9_nonce_stepping checksumAead ⟨[7], "c"⟩ 1
    [255, 255, 255, 255, 255, 255, 255, 255, 255, 255, 255, 255] [some [104, 105]]
    [254, 255, 255, 255, 255, 255, 255, 255, 255, 255, 255, 255]
    ⟨1, [some [104, 105]], [[none], [some []], [some [104, 105]]]⟩
    (by decide) (by decide) (by decide)
  ⟨by decide, by decide, by decide, h.1,
    h.2.2.2.2.2.1.elim fun envelopes he => ⟨envelopes, he.1, he.2.1⟩⟩

/-! ## Blocks: rows and their results -/

/-- The first row that throws ends the block with its error. -/
theorem decrypt_loop_error {Ctx : Type} (prim : Aes256Gcm Ctx) (f : AESGCMFunction Ctx)
    (numCols : Nat) (r : Row) (post : List Row) (err : Error)
    (hr : (AESGCMDecrypt.processRow prim f numCols r).result = .error err) :
    ∀ pre : List Row,
      (∀ r' ∈ pre, ∃ v, (AESGCMDecrypt.processRow prim f numCols r').result = .ok v) →
      (AESGCMDecrypt.loop prim f numCols (pre ++ r :: post)).result = .error err := by
  intro pre
  induction pre with
  | nil =>
    intro _
    simp only [List.nil_append, AESGCMDecrypt.loop, hr]
  | cons r' pre ih =>
    intro hpre
    obtain ⟨v, hv⟩ := hpre r' (List.mem_cons_self _ _)
    have hrest := ih (fun x hx => hpre x (List.mem_cons_of_mem _ hx))
    simp only [List.cons_append, AESGCMDecrypt.loop, hv, List.append_eq, hrest]

/-- A block that ends without error holds, row by row, the results of the rows. -/
theorem decrypt_loop_ok {Ctx : Type} (prim : Aes256Gcm Ctx) (f : AESGCMFunction Ctx)
    (numCols : Nat) (rows : List Row) :
    ∀ outs, (AESGCMDecrypt.loop prim f numCols rows).result = .ok outs →
      ∀ (i : Nat) (r : Row), rows[i]? = some r →
        ∃ v, (AESGCMDecrypt.processRow prim f numCols r).result = .ok v ∧ outs[i]? = some v := by
  induction rows with
  | nil => intro outs _ i r hr; simp at hr
  | cons r0 rs ih =>
    intro outs h i r hr
    unfold AESGCMDecrypt.loop at h
    simp only at h
    split at h
    · simp at h
    · rename_i v hv
      split at h
      · simp at h
      · rename_i vs hvs
        simp only [Except.ok.injEq] at h
        subst h
        cases i with
        | zero =>
          simp only [List.getElem?_cons_zero, Option.some.injEq] at hr
          subst hr
          exact ⟨v, hv, by simp⟩
        | succ j =>
          simp only [List.getElem?_cons_succ] at hr ⊢
          exact ih vs hvs j r hr

/-- The value the encryption loop writes for a row with a NULL primary input is NULL. -/
theorem encrypt_loop_null {Ctx : Type} (prim : Aes256Gcm Ctx) (f : AESGCMFunction Ctx)
    (numCols : Nat) (rows : List Row) :
    ∀ (nonce : Bytes) (i : Nat) (r : Row), rows[i]? = some r → r.isNull 0 = true →
      (AESGCMEncrypt.loop prim f numCols nonce rows).1[i]? = some none := by
  induction rows with
  | nil => intro nonce i r hr; simp at hr
  | cons r0 rs ih =>
    intro nonce i r hr hnull
    cases i with
    | zero =>
      simp only [List.getElem?_cons_zero, Option.some.injEq] at hr
      subst hr
      simp [AESGCMEncrypt.loop, encrypt_row_null prim f numCols nonce r0 hnull]
    | succ j =>
      simp only [List.getElem?_cons_succ] at hr
      simp only [AESGCMEncrypt.loop, List.getElem?_cons_succ]
      exact ih _ j r hr hnull

/-- The value the encryption loop writes for a row is the value of the row step at
some state of the nonce array, which has the length of the starting nonce. -/
theorem encrypt_loop_row {Ctx : Type} (prim : Aes256Gcm Ctx) (f : AESGCMFunction Ctx)
    (numCols : Nat) (rows : List Row) :
    ∀ (nonce : Bytes) (i : Nat) (r : Row), rows[i]? = some r →
      ∃ n : Bytes, n.length = nonce.length ∧
        (AESGCMEncrypt.loop prim f numCols nonce rows).1[i]?
          = some (AESGCMEncrypt.processRow prim f numCols n r).1 := by
  induction rows with
  | nil => intro nonce i r hr; simp at hr
  | cons r0 rs ih =>
    intro nonce i r hr
    cases i with
    | zero =>
      simp only [List.getElem?_cons_zero, Option.some.injEq] at hr
      subst hr
      exact ⟨nonce, rfl, by simp [AESGCMEncrypt.loop]⟩
    | succ j =>
      simp only [List.getElem?_cons_succ] at hr
      obtain ⟨n, hn, hout⟩ := ih (AESGCMEncrypt.processRow prim f numCols nonce r0).2.2 j r hr
      refine ⟨n, by rw [hn, length_nonce_after], ?_⟩
      simp only [AESGCMEncrypt.loop, List.getElem?_cons_succ]
      exact hout

/-! ## The decryption step on a non-null envelope -/

theorem overhead_eq : AESGCMFunction.overhead = 28 := rfl

theorem decrypt_row_short {Ctx : Type} (prim : Aes256Gcm Ctx) (f : AESGCMFunction Ctx)
    (numCols : Nat) (e : Bytes) (rest : Row) (h : e.length < 28) :
    AESGCMDecrypt.processRow prim f numCols (some e :: rest) =
      ⟨.error (.tooShort f.column_name e.length 28),
        [Event.getStringRef 0] ++ (associatedData numCols (some e :: rest)).2⟩ := by
  simp [AESGCMDecrypt.processRow, Row.isNull, Row.getStringRef, overhead_eq, h]

theorem decrypt_row_long {Ctx : Type} (prim : Aes256Gcm Ctx) (f : AESGCMFunction Ctx)
    (numCols : Nat) (e : Bytes) (rest : Row) (h : 28 ≤ e.length) :
    AESGCMDecrypt.processRow prim f numCols (some e :: rest) =
      ⟨(if (prim.decrypt_afternm (e.drop 12) (associatedData numCols (some e :: rest)).1
            (e.take 12) f.crypto_ctx).1 = -1 then
          .error (.verifyFailed f.column_name)
        else if (prim.decrypt_afternm (e.drop 12) (associatedData numCols (some e :: rest)).1
            (e.take 12) f.crypto_ctx).1 ≠ 0 then
          .error (.decryptionError f.column_name)
        else
          .ok (some (writeAt (alloc (e.length - 28)) 0
            (prim.decrypt_afternm (e.drop 12) (associatedData numCols (some e :: rest)).1
              (e.take 12) f.crypto_ctx).2))),
        [Event.getStringRef 0] ++ (associatedData numCols (some e :: rest)).2 ++
          [Event.decryptCall (e.drop 12) (associatedData numCols (some e :: rest)).1
            (e.take 12)]⟩ := by
  have hnot : ¬ e.length < 28 := by omega
  have htake : (e.drop 12).take (e.length - 12) = e.drop 12 := by
    apply List.take_of_length_le; simp
  simp only [AESGCMDecrypt.processRow, Row.isNull, Row.getStringRef, overhead_eq,
    List.getD_cons_zero, Option.isNone_some, Option.getD_some, Bool.false_eq_true, if_false,
    hnot, crypto_aead_aes256gcm_NPUBBYTES, htake]
  split
  · rfl
  · split <;> rfl

/-! ## C4: length law -/

/-- C4. Length law: for every non-null plaintext `p` (of any length, zero included) the
envelope written by a step of `AESGCMEncrypt::processBlock` has length `p.length + 28`;
the primitive is called once, with the nonce array; for a 12-byte nonce array the first
12 bytes of the envelope are that nonce, and when the primitive returns `p.length + 16`
bytes the rest of the envelope is exactly these bytes. Every envelope `e` for which a step
of `AESGCMDecrypt::processBlock` writes a plaintext `m` has `28 ≤ e.length` and
`m.length = e.length - 28`. The same lengths hold for the values of the result column of
a whole block. The overhead is 12 + 16 = 28. -/
theorem C4_length_law {Ctx : Type} (prim : Aes256Gcm Ctx) (f : AESGCMFunction Ctx)
    (numCols : Nat) :
    (∀ (nonce p : Bytes) (rest : Row), ∃ envelope : Bytes,
      (AESGCMEncrypt.processRow prim f numCols nonce (some p :: rest)).1 = some envelope ∧
      envelope.length = p.length + 28 ∧
      (AESGCMEncrypt.processRow prim f numCols nonce (some p :: rest)).2.1.filter
          (fun ev => ev matches Event.encryptCall _ _ _)
        = [Event.encryptCall p (associatedData numCols (some p :: rest)).1 nonce] ∧
      (nonce.length = 12 → envelope.take 12 = nonce) ∧
      (nonce.length = 12 →
        (prim.encrypt_afternm p (associatedData numCols (some p :: rest)).1 nonce
          f.crypto_ctx).length = p.length + 16 →
        envelope.drop 12 = prim.encrypt_afternm p (associatedData numCols (some p :: rest)).1
          nonce f.crypto_ctx ∧ (envelope.drop 12).length = p.length + 16)) ∧
    (∀ (e : Bytes) (rest : Row) (m : Bytes),
      (AESGCMDecrypt.processRow prim f numCols (some e :: rest)).result = .ok (some m) →
      28 ≤ e.length ∧ m.length = e.length - 28) ∧
    (∀ (seed : Bytes) (arg_reader : BlockReader) (i : Nat) (p : Bytes) (rest : Row),
      (arg_reader.numCols = 1 ∨ arg_reader.numCols = 2) →
      arg_reader.rows[i]? = some (some p :: rest) →
      ∃ (envelopes : List (Option Bytes)) (envelope : Bytes),
        (AESGCMEncrypt.processBlock prim f seed arg_reader).result = .ok envelopes ∧
        envelopes[i]? = some (some envelope) ∧ envelope.length = p.length + 28) ∧
    (∀ (arg_reader : BlockReader) (outs : List (Option Bytes)) (i : Nat) (e : Bytes)
      (rest : Row),
      (AESGCMDecrypt.processBlock prim f arg_reader).result = .ok outs →
      arg_reader.rows[i]? = some (some e :: rest) →
      ∃ m : Bytes, outs[i]? = some (some m) ∧ 28 ≤ e.length ∧ m.length = e.length - 28) ∧
    AESGCMFunction.overhead = 12 + 16 ∧ AESGCMFunction.overhead = 28 := by
  have hdecrow : ∀ (k : Nat) (e : Bytes) (rest : Row) (v : Option Bytes),
      (AESGCMDecrypt.processRow prim f k (some e :: rest)).result = .ok v →
      ∃ m : Bytes, v = some m ∧ 28 ≤ e.length ∧ m.length = e.length - 28 := by
    intro k e rest v h
    by_cases hlen : e.length < 28
    · rw [decrypt_row_short prim f k e rest hlen] at h
      simp at h
    · have hge : 28 ≤ e.length := by omega
      rw [decrypt_row_long prim f k e rest hge] at h
      simp only at h
      split at h
      · simp at h
      · split at h
        · simp at h
        · simp only [Except.ok.injEq] at h
          exact ⟨_, h.symm, hge, by rw [length_writeAt, length_alloc]⟩
  refine ⟨?_, ?_, ?_, ?_, rfl, rfl⟩
  · intro nonce p rest
    refine ⟨_, by rw [encrypt_row_some], ?_, ?_, ?_, ?_⟩
    · rw [length_writeAt, length_writeAt, length_alloc, overhead_eq]
    · have had : ∀ x ∈ (associatedData numCols (some p :: rest)).2,
          x = Event.getStringRef 1 := by
        intro x hx
        unfold associatedData at hx
        split at hx <;> simp at hx
        exact hx
      rw [encrypt_row_some]
      simp only [List.filter_append, List.filter_cons, List.filter_nil]
      have hnone : (associatedData numCols (some p :: rest)).2.filter
          (fun ev => ev matches Event.encryptCall _ _ _) = [] := by
        rw [List.filter_eq_nil_iff]
        intro x hx
        rw [had x hx]
        simp
      rw [hnone]
      rfl
    · intro hn
      exact envelope_take nonce _ p.length hn
    · intro hn hlen
      rw [envelope_eq nonce _ p.length hn hlen]
      have h12 : nonce.length = 12 := hn
      constructor
      · rw [← h12]; exact List.drop_left' rfl
      · rw [← h12, List.drop_left' rfl, hlen]
  · intro e rest m h
    obtain ⟨m', hm, hge, hl⟩ := hdecrow numCols e rest (some m) h
    simp only [Option.some.injEq] at hm
    subst hm
    exact ⟨hge, hl⟩
  · intro seed arg_reader i p rest hcols hi
    obtain ⟨n, _, hout⟩ := encrypt_loop_row prim f arg_reader.numCols arg_reader.rows seed i _ hi
    rw [encrypt_row_some] at hout
    refine ⟨_, _, by rw [encrypt_block_eq prim f seed arg_reader hcols], hout, ?_⟩
    rw [length_writeAt, length_writeAt, length_alloc, overhead_eq]
  · intro arg_reader outs i e rest hres hi
    unfold AESGCMDecrypt.processBlock at hres
    split at hres
    · simp at hres
    · obtain ⟨v, hv, hout⟩ := decrypt_loop_ok prim f _ _ outs hres i _ hi
      obtain ⟨m, hm, hge, hl⟩ := hdecrow _ e rest v hv
      exact ⟨m, by rw [hout, hm], hge, hl⟩

/-- Instance: "hello" without associated data under the stand-in
primitive gives a 33-byte envelope, nonce first, and that envelope decrypts to 5 bytes;
the empty plaintext gives a 28-byte envelope. -/
theorem C4_length_law_witness :
    (∃ envelope : Bytes,
      (AESGCMEncrypt.processRow checksumAead ⟨[7], "c"⟩ 1
        [1, 2, 3, 4, 5, 6, 7, 8, 9, 10, 11, 12] [some [104, 101, 108, 108, 111]]).1
        = some envelope ∧
      envelope.length = 33 ∧
      envelope.take 12 = [1, 2, 3, 4, 5, 6, 7, 8, 9, 10, 11, 12] ∧
      envelope.drop 12 = checksumAead.encrypt_afternm [104, 101, 108, 108, 111] none
        [1, 2, 3, 4, 5, 6, 7, 8, 9, 10, 11, 12] [7]) ∧
    (∃ envelope : Bytes,
      (AESGCMEncrypt.processRow checksumAead ⟨[7], "c"⟩ 1
        [1, 2, 3, 4, 5, 6, 7, 8, 9, 10, 11, 12] [some []]).1 = some envelope ∧
      envelope.length = 28) ∧
    (AESGCMDecrypt.processRow checksumAead ⟨[7], "c"⟩ 1
      [some [1, 2, 3, 4, 5, 6, 7, 8, 9, 10, 11, 12, 104, 101, 108, 108, 111,
        105, 0, 0, 0, 0, 0, 0, 0, 0, 0, 0, 0, 0, 0, 0, 0]]).result
      = .ok (some [104, 101, 108, 108, 111]) ∧
    [104, 101, 108, 108, 111].length = 33 - 28 := by
  have h := C4_length_law checksumAead ⟨[7], "c"⟩ 1
  obtain ⟨env, h1, h2, _, h4, h5⟩ := h.1 [1, 2, 3, 4, 5, 6, 7, 8, 9, 10, 11, 12]
    [104, 101, 108, 108, 111] []
  obtain ⟨env0, g1, g2, _⟩ := h.1 [1, 2, 3, 4, 5, 6, 7, 8, 9, 10, 11, 12] [] []
  have hdec : (AESGCMDecrypt.processRow checksumAead ⟨[7], "c"⟩ 1
      [some [1, 2, 3, 4, 5, 6, 7, 8, 9, 10, 11, 12, 104, 101, 108, 108, 111,
        105, 0, 0, 0, 0, 0, 0, 0, 0, 0, 0, 0, 0, 0, 0, 0]]).result
      = .ok (some [104, 101, 108, 108, 111]) := by rfl
  exact ⟨⟨env, h1, h2, h4 (by decide), (h5 (by decide) (by decide)).1⟩, ⟨env0, g1, g2⟩, hdec,
    (h.2.1 _ _ _ hdec).2⟩

/-! ## C5: minimum-length rejection -/

/-- C5. Minimum-length rejection: for every non-null envelope `e`, every number of
argument columns and every associated data cell, a step of `AESGCMDecrypt::processBlock`
throws the too-short error if and only if `e.length < 28`. When it does, the error
reports the column name, the actual length `e.length` and the minimum 28, the primitive
is not called, no plaintext is written, and the block whose earlier rows decrypt without
error ends with that error. An envelope of exactly 28 bytes is not too short. -/
theorem C5_too_short_iff {Ctx : Type} (prim : Aes256Gcm Ctx) (f : AESGCMFunction Ctx)
    (numCols : Nat) (e : Bytes) (rest : Row) :
    ((∃ column actual expected,
        (AESGCMDecrypt.processRow prim f numCols (some e :: rest)).result
          = .error (.tooShort column actual expected)) ↔ e.length < 28) ∧
    (e.length < 28 →
      (AESGCMDecrypt.processRow prim f numCols (some e :: rest)).result
        = .error (.tooShort f.column_name e.length 28) ∧
      (AESGCMDecrypt.processRow prim f numCols (some e :: rest)).trace.filter
        (fun ev => ev matches Event.decryptCall _ _ _) = [] ∧
      ∀ (arg_reader : BlockReader) (pre post : List Row),
        arg_reader.numCols = numCols → (numCols = 1 ∨ numCols = 2) →
        arg_reader.rows = pre ++ (some e :: rest) :: post →
        (∀ r ∈ pre, ∃ v, (AESGCMDecrypt.processRow prim f numCols r).result = .ok v) →
        (AESGCMDecrypt.processBlock prim f arg_reader).result
          = .error (.tooShort f.column_name e.length 28)) ∧
    (e.length = 28 → ∀ column actual expected,
      (AESGCMDecrypt.processRow prim f numCols (some e :: rest)).result
        ≠ .error (.tooShort column actual expected)) := by
  have hiff : (∃ column actual expected,
      (AESGCMDecrypt.processRow prim f numCols (some e :: rest)).result
        = .error (.tooShort column actual expected)) ↔ e.length < 28 := by
    constructor
    · rintro ⟨column, actual, expected, h⟩
      by_contra hlen
      have hge : 28 ≤ e.length := by omega
      rw [decrypt_row_long prim f numCols e rest hge] at h
      simp only at h
      split at h
      · simp at h
      · split at h <;> simp at h
    · intro hlen
      exact ⟨f.column_name, e.length, 28, by rw [decrypt_row_short prim f numCols e rest hlen]⟩
  refine ⟨hiff, ?_, ?_⟩
  · intro hlen
    have hrow : (AESGCMDecrypt.processRow prim f numCols (some e :: rest)).result
        = .error (.tooShort f.column_name e.length 28) := by
      rw [decrypt_row_short prim f numCols e rest hlen]
    refine ⟨hrow, ?_, ?_⟩
    · have had : ∀ x ∈ (associatedData numCols (some e :: rest)).2,
          x = Event.getStringRef 1 := by
        intro x hx
        unfold associatedData at hx
        split at hx <;> simp at hx
        exact hx
      rw [decrypt_row_short prim f numCols e rest hlen, List.filter_eq_nil_iff]
      intro x hx
      simp only [List.mem_append, List.mem_singleton] at hx
      rcases hx with rfl | hx
      · simp
      · rw [had x hx]; simp
    · intro arg_reader pre post hnum hcols hrows hpre
      rw [decrypt_block_eq prim f arg_reader (by rw [hnum]; exact hcols), hrows, hnum]
      exact decrypt_loop_error prim f numCols _ post _ hrow pre hpre
  · intro hlen column actual expected h
    have := hiff.mp ⟨column, actual, expected, h⟩
    omega

/-- Instance: a 27-byte envelope in the second row of a block with
two argument columns, after a NULL row. -/
theorem C5_too_short_iff_witness :
    (List.replicate 27 1).length < 28 ∧
    (AESGCMDecrypt.processBlock checksumAead ⟨[7], "c"⟩
      ⟨2, [none, some [107]], [[some (List.replicate 27 1), some [107]]]⟩).result
      = .error (.tooShort "c" 27 28) :=
  ⟨by decide,
    ((C5_too_short_iff checksumAead ⟨[7], "c"⟩ 2 (List.replicate 27 1) [some [107]]).2.1
      (by decide)).2.2
      ⟨2, [none, some [107]], [[some (List.replicate 27 1), some [107]]]⟩ [[none, some [107]]] []
      rfl (Or.inr rfl) rfl
      (by intro r hr; rw [List.mem_singleton] at hr; subst hr; exact ⟨none, rfl⟩)⟩

/-! ## C6: null propagation -/

/-- C6. Null propagation: for every row whose primary input (column 0) is NULL, with
any number of argument columns and any other cells (one argument; two arguments with
NULL, empty or non-empty associated data), a step of `AESGCMEncrypt::processBlock` and a
step of `AESGCMDecrypt::processBlock` write NULL, with an empty trace: no column value is
fetched (the associated data is not read), the primitive is not called, the nonce is not
incremented, and no error is thrown. In a block, the value written for such a row is
NULL. -/
theorem C6_null_propagation {Ctx : Type} (prim : Aes256Gcm Ctx) (f : AESGCMFunction Ctx)
    (r : Row) (hnull : r.isNull 0 = true) :
    (∀ (numCols : Nat) (nonce : Bytes),
      AESGCMEncrypt.processRow prim f numCols nonce r = (none, [], nonce)) ∧
    (∀ numCols : Nat, AESGCMDecrypt.processRow prim f numCols r = ⟨.ok none, []⟩) ∧
    (∀ (seed : Bytes) (arg_reader : BlockReader) (i : Nat),
      (arg_reader.numCols = 1 ∨ arg_reader.numCols = 2) → arg_reader.rows[i]? = some r →
      ∃ envelopes : List (Option Bytes),
        (AESGCMEncrypt.processBlock prim f seed arg_reader).result = .ok envelopes ∧
        envelopes[i]? = some none) ∧
    (∀ (arg_reader : BlockReader) (i : Nat) (outs : List (Option Bytes)),
      arg_reader.rows[i]? = some r →
      (AESGCMDecrypt.processBlock prim f arg_reader).result = .ok outs →
      outs[i]? = some none) := by
  refine ⟨?_, ?_, ?_, ?_⟩
  · intro numCols nonce
    exact encrypt_row_null prim f numCols nonce r hnull
  · intro numCols
    exact decrypt_row_null prim f numCols r hnull
  · intro seed arg_reader i hcols hi
    refine ⟨_, by rw [encrypt_block_eq prim f seed arg_reader hcols], ?_⟩
    exact encrypt_loop_null prim f _ _ seed i r hi hnull
  · intro arg_reader i outs hi hres
    unfold AESGCMDecrypt.processBlock at hres
    split at hres
    · simp at hres
    · obtain ⟨v, hv, hout⟩ := decrypt_loop_ok prim f _ _ outs hres i r hi
      rw [decrypt_row_null prim f _ r hnull] at hv
      simp only [Except.ok.injEq] at hv
      rw [hout, ← hv]

/-- Instance: the row (NULL, "k") of the two-argument form. -/
theorem C6_null_propagation_witness :
    Row.isNull [none, some [107]] 0 = true ∧
    AESGCMEncrypt.processRow checksumAead ⟨[7], "c"⟩ 2
      [1, 2, 3, 4, 5, 6, 7, 8, 9, 10, 11, 12] [none, some [107]]
      = (none, [], [1, 2, 3, 4, 5, 6, 7, 8, 9, 10, 11, 12]) ∧
    AESGCMDecrypt.processRow checksumAead ⟨[7], "c"⟩ 2 [none, some [107]] = ⟨.ok none, []⟩ :=
  ⟨rfl,
    (C6_null_propagation checksumAead ⟨[7], "c"⟩ [none, some [107]] rfl).1 2
      [1, 2, 3, 4, 5, 6, 7, 8, 9, 10, 11, 12],
    (C6_null_propagation checksumAead ⟨[7], "c"⟩ [none, some [107]] rfl).2.1 2⟩

/-! ## C7: associated data absent, NULL or empty -/

theorem associatedData_cons (numCols : Nat) (c c' : Option Bytes) (rest : Row) :
    associatedData numCols (c :: rest) = associatedData numCols (c' :: rest) := by
  have h := associatedData_set0 numCols (c :: rest) c'
  simp only [List.set_cons_zero] at h
  exact h.symm

/-- C7. Associated data absent, NULL or empty: for every non-null primary value the
one-argument form, the two-argument form with a NULL associated-data cell and the
two-argument form with a zero-length associated-data cell hand the primitive the same
associated data, `none` (NULL pointer, length 0), in the encryption step and in the
decryption step alike. Hence, for the same key context and nonce, the three encryption
steps write the same envelope and call the primitive with the same arguments, the three
decryption steps of an envelope give the same result, and (for a 12-byte nonce and a
primitive that inverts its encryption) the envelope written under any one of the three
forms decrypts to the plaintext under each of the three. -/
theorem C7_ad_absent_null_empty {Ctx : Type} (prim : Aes256Gcm Ctx) (f : AESGCMFunction Ctx)
    (nonce p : Bytes) :
    (∀ v : Bytes, (associatedData 1 [some v]).1 = none ∧
      (associatedData 2 [some v, none]).1 = none ∧
      (associatedData 2 [some v, some []]).1 = none) ∧
    ((AESGCMEncrypt.processRow prim f 1 nonce [some p]).2.1.filter
        (fun ev => ev matches Event.encryptCall _ _ _) = [Event.encryptCall p none nonce] ∧
      (AESGCMEncrypt.processRow prim f 2 nonce [some p, none]).2.1.filter
        (fun ev => ev matches Event.encryptCall _ _ _) = [Event.encryptCall p none nonce] ∧
      (AESGCMEncrypt.processRow prim f 2 nonce [some p, some []]).2.1.filter
        (fun ev => ev matches Event.encryptCall _ _ _) = [Event.encryptCall p none nonce]) ∧
    ((AESGCMEncrypt.processRow prim f 2 nonce [some p, none]).1
        = (AESGCMEncrypt.processRow prim f 1 nonce [some p]).1 ∧
      (AESGCMEncrypt.processRow prim f 2 nonce [some p, some []]).1
        = (AESGCMEncrypt.processRow prim f 1 nonce [some p]).1) ∧
    (∀ e : Bytes,
      (AESGCMDecrypt.processRow prim f 2 [some e, none]).result
        = (AESGCMDecrypt.processRow prim f 1 [some e]).result ∧
      (AESGCMDecrypt.processRow prim f 2 [some e, some []]).result
        = (AESGCMDecrypt.processRow prim f 1 [some e]).result ∧
      (28 ≤ e.length →
        (AESGCMDecrypt.processRow prim f 1 [some e]).trace.filter
          (fun ev => ev matches Event.decryptCall _ _ _)
          = [Event.decryptCall (e.drop 12) none (e.take 12)] ∧
        (AESGCMDecrypt.processRow prim f 2 [some e, none]).trace.filter
          (fun ev => ev matches Event.decryptCall _ _ _)
          = [Event.decryptCall (e.drop 12) none (e.take 12)] ∧
        (AESGCMDecrypt.processRow prim f 2 [some e, some []]).trace.filter
          (fun ev => ev matches Event.decryptCall _ _ _)
          = [Event.decryptCall (e.drop 12) none (e.take 12)])) ∧
    (nonce.length = 12 → prim.Inverts f.crypto_ctx →
      ∃ envelope : Bytes,
        (AESGCMEncrypt.processRow prim f 1 nonce [some p]).1 = some envelope ∧
        (AESGCMDecrypt.processRow prim f 1 [some envelope]).result = .ok (some p) ∧
        (AESGCMDecrypt.processRow prim f 2 [some envelope, none]).result = .ok (some p) ∧
        (AESGCMDecrypt.processRow prim f 2 [some envelope, some []]).result = .ok (some p)) := by
  have had : ∀ v : Bytes, associatedData 1 [some v] = (none, []) ∧
      associatedData 2 [some v, none] = (none, []) ∧
      associatedData 2 [some v, some []] = (none, [Event.getStringRef 1]) := by
    intro v
    simp [associatedData, Row.isNull, Row.getStringRef]
  have hdec : ∀ e : Bytes,
      (AESGCMDecrypt.processRow prim f 2 [some e, none]).result
        = (AESGCMDecrypt.processRow prim f 1 [some e]).result ∧
      (AESGCMDecrypt.processRow prim f 2 [some e, some []]).result
        = (AESGCMDecrypt.processRow prim f 1 [some e]).result := by
    intro e
    by_cases hlen : e.length < 28
    · simp only [decrypt_row_short prim f _ e _ hlen, and_self]
    · have hge : 28 ≤ e.length := by omega
      simp only [decrypt_row_long prim f _ e _ hge, (had e).1, (had e).2.1, (had e).2.2,
        and_self]
  refine ⟨fun v => ⟨by rw [(had v).1], by rw [(had v).2.1], by rw [(had v).2.2]⟩, ?_, ?_, ?_, ?_⟩
  · simp only [encrypt_row_some, (had p).1, (had p).2.1, (had p).2.2]
    simp
  · simp only [encrypt_row_some, (had p).1, (had p).2.1, (had p).2.2, and_self]
  · intro e
    refine ⟨(hdec e).1, (hdec e).2, ?_⟩
    intro hge
    simp only [decrypt_row_long prim f _ e _ hge, (had e).1, (had e).2.1, (had e).2.2]
    simp
  · intro hn hprim
    have hrt := decrypt_encrypt_row prim f hprim 1 nonce hn [some p]
    rw [encrypt_row_some] at hrt ⊢
    simp only [List.set_cons_zero, List.getD_cons_zero] at hrt
    refine ⟨_, rfl, hrt, ?_, ?_⟩
    · rw [(hdec _).1]; exact hrt
    · rw [(hdec _).2]; exact hrt

/-- Instance: "hello" encrypted in the one-argument form under
the stand-in primitive decrypts in the two-argument forms with NULL and with empty
associated data. -/
theorem C7_ad_absent_null_empty_witness :
    [1, 2, 3, 4, 5, 6, 7, 8, 9, 10, 11, 12].length = 12 ∧ checksumAead.Inverts [7] ∧
    ∃ envelope : Bytes,
      (AESGCMEncrypt.processRow checksumAead ⟨[7], "c"⟩ 1
        [1, 2, 3, 4, 5, 6, 7, 8, 9, 10, 11, 12] [some [104, 101, 108, 108, 111]]).1
        = some envelope ∧
      (AESGCMDecrypt.processRow checksumAead ⟨[7], "c"⟩ 1 [some envelope]).result
        = .ok (some [104, 101, 108, 108, 111]) ∧
      (AESGCMDecrypt.processRow checksumAead ⟨[7], "c"⟩ 2 [some envelope, none]).result
        = .ok (some [104, 101, 108, 108, 111]) ∧
      (AESGCMDecrypt.processRow checksumAead ⟨[7], "c"⟩ 2 [some envelope, some []]).result
        = .ok (some [104, 101, 108, 108, 111]) :=
  ⟨rfl, checksumAead_inverts [7],
    (C7_ad_absent_null_empty checksumAead ⟨[7], "c"⟩ [1, 2, 3, 4, 5, 6, 7, 8, 9, 10, 11, 12]
      [104, 101, 108, 108, 111]).2.2.2.2 rfl (checksumAead_inverts [7])⟩

/-! ## C2: tamper detection -/

theorem length_flipBit (bs : Bytes) (i b : Nat) : (flipBit bs i b).length = bs.length := by
  simp [flipBit]

theorem flipBit_append_left (p q : Bytes) (i b : Nat) (h : i < p.length) :
    flipBit (p ++ q) i b = flipBit p i b ++ q := by
  unfold flipBit
  rw [List.getD_append p q 0 i h, List.set_append_left i _ h]

theorem flipBit_append_right (p q : Bytes) (i b : Nat) (h : p.length ≤ i) :
    flipBit (p ++ q) i b = p ++ flipBit q (i - p.length) b := by
  unfold flipBit
  rw [List.getD_append_right p q 0 i h, List.set_append_right i _ h]

theorem associatedData_some (numCols : Nat) (c : Option Bytes) (a : Bytes) (tail : Row)
    (hcols : 1 < numCols) (ha : 0 < a.length) :
    associatedData numCols (c :: some a :: tail) = (some a, [Event.getStringRef 1]) := by
  simp [associatedData, Row.isNull, Row.getStringRef, hcols, ha]

/-- C2. Tamper detection. The authentication property is the primitive's (libsodium's
AES-256-GCM, kept abstract): it is assumed that the primitive returns -1 when one bit of
the nonce, of the ciphertext with tag, or of the associated data it was given is flipped
(`RejectsBitFlips`), and that its output is 16 bytes longer than the plaintext. Then, for
the envelope `e` that a step of `AESGCMEncrypt::processBlock` writes for a non-null
plaintext: flipping any single bit of `e` (nonce region, ciphertext region or tag
region), or any single bit of a non-empty associated-data cell, makes the step of
`AESGCMDecrypt::processBlock` throw "Failed to verify ciphertext in column ..."; no
plaintext is returned, and a block whose earlier rows decrypt ends with that error. When
the primitive rejects the associated data "x" for the ciphertext of "hello" made without
associated data, decrypting the one-argument envelope of "hello" with the second
argument "x" throws the same error. -/
theorem C2_tamper_detection {Ctx : Type} (prim : Aes256Gcm Ctx) (f : AESGCMFunction Ctx) :
    (∀ (numCols : Nat) (nonce p : Bytes) (rest : Row),
      nonce.length = 12 →
      (prim.encrypt_afternm p (associatedData numCols (some p :: rest)).1 nonce
        f.crypto_ctx).length = p.length + 16 →
      prim.RejectsBitFlips f.crypto_ctx p (associatedData numCols (some p :: rest)).1 nonce →
      ∃ envelope : Bytes,
        (AESGCMEncrypt.processRow prim f numCols nonce (some p :: rest)).1 = some envelope ∧
        (∀ i b, i < envelope.length → b < 8 →
          (AESGCMDecrypt.processRow prim f numCols
            (some (flipBit envelope i b) :: rest)).result
            = .error (.verifyFailed f.column_name)) ∧
        (∀ (a : Bytes) (tail : Row) (i b : Nat), 1 < numCols → rest = some a :: tail →
          i < a.length → b < 8 →
          (AESGCMDecrypt.processRow prim f numCols
            (some envelope :: some (flipBit a i b) :: tail)).result
            = .error (.verifyFailed f.column_name))) ∧
    (∀ (row : Row) (arg_reader : BlockReader) (pre post : List Row),
      (arg_reader.numCols = 1 ∨ arg_reader.numCols = 2) →
      arg_reader.rows = pre ++ row :: post →
      (∀ r ∈ pre, ∃ v, (AESGCMDecrypt.processRow prim f arg_reader.numCols r).result = .ok v) →
      (AESGCMDecrypt.processRow prim f arg_reader.numCols row).result
        = .error (.verifyFailed f.column_name) →
      (AESGCMDecrypt.processBlock prim f arg_reader).result
        = .error (.verifyFailed f.column_name)) ∧
    (∀ nonce : Bytes, nonce.length = 12 →
      (prim.encrypt_afternm [104, 101, 108, 108, 111] none nonce f.crypto_ctx).length
        = 5 + 16 →
      (prim.decrypt_afternm (prim.encrypt_afternm [104, 101, 108, 108, 111] none nonce
        f.crypto_ctx) (some [120]) nonce f.crypto_ctx).1 = -1 →
      ∃ envelope : Bytes,
        (AESGCMEncrypt.processRow prim f 1 nonce [some [104, 101, 108, 108, 111]]).1
          = some envelope ∧
        envelope.length = 33 ∧
        (AESGCMDecrypt.processRow prim f 2 [some envelope, some [120]]).result
          = .error (.verifyFailed f.column_name)) := by
  refine ⟨?_, ?_, ?_⟩
  · intro numCols nonce p rest hn hlen hauth
    have hn' : nonce.length = crypto_aead_aes256gcm_NPUBBYTES := hn
    refine ⟨_, by rw [encrypt_row_some], ?_, ?_⟩
    · intro i b hi hb
      rw [envelope_eq nonce _ p.length hn' hlen] at hi ⊢
      rw [List.length_append, hn, hlen] at hi
      have hge : 28 ≤ (flipBit (nonce ++ prim.encrypt_afternm p
          (associatedData numCols (some p :: rest)).1 nonce f.crypto_ctx) i b).length := by
        rw [length_flipBit, List.length_append, hn, hlen]; omega
      rw [decrypt_row_long prim f numCols _ rest hge,
        associatedData_cons numCols (some (flipBit _ i b)) (some p) rest]
      by_cases hi12 : i < 12
      · rw [flipBit_append_left _ _ i b (by omega)]
        have h12 : (flipBit nonce i b).length = 12 := by rw [length_flipBit, hn]
        rw [← h12, List.take_left' rfl, List.drop_left' rfl]
        simp only [hauth.1 i (by omega) b hb, if_true]
      · rw [flipBit_append_right _ _ i b (by omega)]
        rw [← hn, List.take_left' rfl, List.drop_left' rfl]
        simp only [hauth.2.1 (i - nonce.length) (by rw [hlen, hn]; omega) b hb, if_true]
    · intro a tail i b hcols hrest hi hb
      subst hrest
      have ha : 0 < a.length := by omega
      have had := associatedData_some numCols (some p) a tail hcols ha
      rw [had] at hlen hauth
      rw [had, envelope_eq nonce _ p.length hn' hlen]
      have hge : 28 ≤ (nonce ++ prim.encrypt_afternm p (some a) nonce f.crypto_ctx).length := by
        rw [List.length_append, hn, hlen]; omega
      rw [decrypt_row_long prim f numCols _ _ hge,
        associatedData_some numCols _ (flipBit a i b) tail hcols
          (by rw [length_flipBit]; exact ha)]
      rw [← hn, List.take_left' rfl, List.drop_left' rfl]
      have h3 := hauth.2.2 i (by simpa using hi) b hb
      simp only [Option.getD_some] at h3
      simp only [h3, if_true]
  · intro row arg_reader pre post hcols hrows hpre hrow
    rw [decrypt_block_eq prim f arg_reader hcols, hrows]
    exact decrypt_loop_error prim f _ _ post _ hrow pre hpre
  · intro nonce hn hl hx
    have hn' : nonce.length = crypto_aead_aes256gcm_NPUBBYTES := hn
    have h1 : (associatedData 1 [some [104, 101, 108, 108, 111]]).1 = none := by
      simp [associatedData]
    have h2 : (associatedData 2 [some (nonce ++ prim.encrypt_afternm [104, 101, 108, 108, 111]
        none nonce f.crypto_ctx), some [120]]).1 = some [120] := by
      rw [associatedData_some 2 _ [120] [] (by omega) (by simp)]
    refine ⟨_, by rw [encrypt_row_some], ?_, ?_⟩
    · rw [length_writeAt, length_writeAt, length_alloc, overhead_eq]; rfl
    · rw [h1, envelope_eq nonce _ ([104, 101, 108, 108, 111] : Bytes).length hn' hl]
      have hge : 28 ≤ (nonce ++ prim.encrypt_afternm [104, 101, 108, 108, 111] none nonce
          f.crypto_ctx).length := by
        rw [List.length_append, hn, hl]; omega
      rw [decrypt_row_long prim f 2 _ _ hge, h2]
      rw [← hn, List.take_left' rfl, List.drop_left' rfl]
      simp only [hx, if_true]

/-- Instance: "hello" with associated data "k" under the stand-in
primitive, which rejects every single-bit flip; and the one-argument envelope of
"hello" decrypted with the second argument "x". -/
theorem C2_tamper_detection_witness :
    [1, 2, 3, 4, 5, 6, 7, 8, 9, 10, 11, 12].length = 12 ∧
    checksumAead.RejectsBitFlips [7] [104, 101, 108, 108, 111] (some [107])
      [1, 2, 3, 4, 5, 6, 7, 8, 9, 10, 11, 12] ∧
    (∃ envelope : Bytes,
      (AESGCMEncrypt.processRow checksumAead ⟨[7], "c"⟩ 2
        [1, 2, 3, 4, 5, 6, 7, 8, 9, 10, 11, 12]
        [some [104, 101, 108, 108, 111], some [107]]).1 = some envelope ∧
      (∀ i b, i < envelope.length → b < 8 →
        (AESGCMDecrypt.processRow checksumAead ⟨[7], "c"⟩ 2
          [some (flipBit envelope i b), some [107]]).result = .error (.verifyFailed "c")) ∧
      (∀ b, b < 8 →
        (AESGCMDecrypt.processRow checksumAead ⟨[7], "c"⟩ 2
          [some envelope, some (flipBit [107] 0 b)]).result = .error (.verifyFailed "c"))) ∧
    (∃ envelope : Bytes,
      (AESGCMEncrypt.processRow checksumAead ⟨[7], "c"⟩ 1
        [1, 2, 3, 4, 5, 6, 7, 8, 9, 10, 11, 12] [some [104, 101, 108, 108, 111]]).1
        = some envelope ∧
      envelope.length = 33 ∧
      (AESGCMDecrypt.processRow checksumAead ⟨[7], "c"⟩ 2 [some envelope, some [120]]).result
        = .error (.verifyFailed "c")) := by
  have hauth : checksumAead.RejectsBitFlips [7] [104, 101, 108, 108, 111] (some [107])
      [1, 2, 3, 4, 5, 6, 7, 8, 9, 10, 11, 12] := by decide
  have h := C2_tamper_detection checksumAead ⟨[7], "c"⟩
  obtain ⟨envelope, h1, h2, h3⟩ := h.1 2 [1, 2, 3, 4, 5, 6, 7, 8, 9, 10, 11, 12]
    [104, 101, 108, 108, 111] [some [107]] rfl rfl hauth
  refine ⟨rfl, hauth, ⟨envelope, h1, h2, ?_⟩,
    h.2.2 [1, 2, 3, 4, 5, 6, 7, 8, 9, 10, 11, 12] rfl rfl rfl⟩
  intro b hb
  exact h3 [107] [] 0 b (by decide) rfl (by decide) hb

/-! ## C10: declared result lengths -/

/-- C10. Declared output length: for every declared input string length `Y` (a
non-negative length with `Y + 28` within the 32-bit range of the length argument, which
covers every length the host can declare), `AESGCMEncryptFactory::getReturnType` declares
`VARBINARY(Y + 28)` and `AESGCMDecryptFactory::getReturnType` declares `VARCHAR(Y - 28)`
when `Y - 28 > 0` and `VARCHAR(1)` otherwise (`Y ≤ 28`); the declared decrypt length is
at least 1. -/
theorem C10_declared_lengths (Y : Int) (h0 : 0 ≤ Y) (hmax : Y + 28 < 2 ^ 31) :
    AESGCMEncryptFactory.getReturnType Y = .varbinary (Y + 28) ∧
    AESGCMDecryptFactory.getReturnType Y = .varchar (if Y - 28 > 0 then Y - 28 else 1) ∧
    (Y ≤ 28 → AESGCMDecryptFactory.getReturnType Y = .varchar 1) ∧
    (28 < Y → AESGCMDecryptFactory.getReturnType Y = .varchar (Y - 28)) ∧
    (∃ n : Int, AESGCMDecryptFactory.getReturnType Y = .varchar n ∧ 1 ≤ n) := by
  have henc : toInt32 (Y + 28) = Y + 28 := by
    unfold toInt32; omega
  have hdec : toInt32 (Y - 28) = Y - 28 := by
    unfold toInt32; omega
  have hd : AESGCMDecryptFactory.getReturnType Y
      = .varchar (if Y - 28 > 0 then Y - 28 else 1) := by
    simp only [AESGCMDecryptFactory.getReturnType, overhead_eq, Nat.cast_ofNat, hdec]
  refine ⟨?_, hd, ?_, ?_, ?_⟩
  · simp only [AESGCMEncryptFactory.getReturnType, overhead_eq, Nat.cast_ofNat, henc]
  · intro h
    rw [hd, if_neg (by omega)]
  · intro h
    rw [hd, if_pos (by omega)]
  · refine ⟨_, hd, ?_⟩
    split <;> omega

/-- Instance at the declared lengths 28 and 65000. -/
theorem C10_declared_lengths_witness :
    ((0 : Int) ≤ 28 ∧ (28 : Int) + 28 < 2 ^ 31 ∧
      AESGCMEncryptFactory.getReturnType 28 = .varbinary 56 ∧
      AESGCMDecryptFactory.getReturnType 28 = .varchar 1) ∧
    ((0 : Int) ≤ 65000 ∧ (65000 : Int) + 28 < 2 ^ 31 ∧
      AESGCMEncryptFactory.getReturnType 65000 = .varbinary 65028 ∧
      AESGCMDecryptFactory.getReturnType 65000 = .varchar 64972) :=
  ⟨⟨by decide, by decide, (C10_declared_lengths 28 (by decide) (by decide)).1,
      (C10_declared_lengths 28 (by decide) (by decide)).2.2.1 (by decide)⟩,
    ⟨by decide, by decide, (C10_declared_lengths 65000 (by decide) (by decide)).1,
      (C10_declared_lengths 65000 (by decide) (by decide)).2.2.2.1 (by decide)⟩⟩

/-! ## C8: key loading -/

theorem isspace_of_hexDigit (c : Nat) (h : (hexDigit c).isSome = true) : isspace c = false := by
  unfold hexDigit at h
  unfold isspace
  split at h
  · simp; omega
  · split at h
    · simp; omega
    · split at h
      · simp; omega
      · simp at h

theorem dropWhile_isspace_append (ws l : Bytes) (hws : ∀ c ∈ ws, isspace c = true) :
    (ws ++ l).dropWhile isspace = l.dropWhile isspace := by
  induction ws with
  | nil => rfl
  | cons w ws ih =>
    have hw := hws w (List.mem_cons_self _ _)
    simp only [List.cons_append, List.dropWhile_cons, hw, if_true]
    exact ih (fun c hc => hws c (List.mem_cons_of_mem _ hc))

theorem takeWhile_word_append (digits l : Bytes) (h : ∀ c ∈ digits, isspace c = false) :
    (digits ++ l).takeWhile (fun c => !isspace c)
      = digits ++ l.takeWhile (fun c => !isspace c) := by
  induction digits with
  | nil => rfl
  | cons d ds ih =>
    have hd := h d (List.mem_cons_self _ _)
    simp only [List.cons_append, List.takeWhile_cons, hd, Bool.not_false, if_true]
    rw [ih (fun c hc => h c (List.mem_cons_of_mem _ hc))]

/-- The word extracted from a file that holds, after leading whitespace, 64 hexadecimal
digits and then anything. -/
theorem extractWord_digits (ws digits rest : Bytes)
    (hws : ∀ c ∈ ws, isspace c = true) (hlen : digits.length = 64)
    (hhex : ∀ c ∈ digits, (hexDigit c).isSome = true) :
    extractWord 65 (ws ++ digits ++ rest) = some digits := by
  have hns : ∀ c ∈ digits, isspace c = false := fun c hc => isspace_of_hexDigit c (hhex c hc)
  have hne : digits ≠ [] := by
    intro h; rw [h] at hlen; simp at hlen
  unfold extractWord
  rw [List.append_assoc, dropWhile_isspace_append ws _ hws]
  have hdrop : (digits ++ rest).dropWhile isspace = digits ++ rest := by
    cases digits with
    | nil => exact absurd rfl hne
    | cons d ds =>
      have hd := hns d (List.mem_cons_self _ _)
      simp [List.dropWhile_cons, hd]
  rw [hdrop, takeWhile_word_append digits rest hns]
  have htake : (digits ++ rest.takeWhile (fun c => !isspace c)).take (65 - 1) = digits := by
    rw [show 65 - 1 = digits.length from hlen.symm]
    exact List.take_left' rfl
  simp only [htake, hne, if_false]

/-- The parsing loop over an even number of hexadecimal digits that fit: it writes the
decoded bytes and goes on behind them. -/
theorem sodium_hex2bin_loop_digits (bin_maxlen : Nat) :
    ∀ (n : Nat) (digits tail bin : Bytes) (hex_pos : Nat),
      digits.length = 2 * n → (∀ c ∈ digits, (hexDigit c).isSome = true) →
      bin.length + n ≤ bin_maxlen →
      sodium_hex2bin_loop bin_maxlen (digits ++ tail) bin hex_pos none
        = sodium_hex2bin_loop bin_maxlen tail (bin ++ decodeHex digits) (hex_pos + 2 * n)
            none := by
  intro n
  induction n with
  | zero =>
    intro digits tail bin hex_pos hlen _ _
    have : digits = [] := List.eq_nil_of_length_eq_zero (by omega)
    subst this
    simp [decodeHex]
  | succ n ih =>
    intro digits tail bin hex_pos hlen hhex hfit
    match digits, hlen, hhex with
    | [], hlen, _ => simp at hlen
    | [_], hlen, _ => simp at hlen; omega
    | hi :: lo :: ds, hlen, hhex =>
      obtain ⟨v1, hv1⟩ := Option.isSome_iff_exists.mp (hhex hi (by simp))
      obtain ⟨v2, hv2⟩ := Option.isSome_iff_exists.mp (hhex lo (by simp))
      have hlt : ¬ bin.length ≥ bin_maxlen := by omega
      have hds : ds.length = 2 * n := by simp at hlen; omega
      have hrec := ih ds tail (bin ++ [v1 * 16 + v2]) (hex_pos + 1 + 1) hds
        (fun c hc => hhex c (by simp [hc])) (by simp; omega)
      simp only [List.cons_append, sodium_hex2bin_loop, hv1, hv2, hlt, if_false,
        decodeHex, Option.getD_some, List.append_eq]
      rw [hrec, List.append_assoc, List.singleton_append]
      congr 1
      omega

theorem length_decodeHex : ∀ (n : Nat) (digits : Bytes), digits.length = 2 * n →
    (decodeHex digits).length = n := by
  intro n
  induction n with
  | zero =>
    intro digits h
    have : digits = [] := List.eq_nil_of_length_eq_zero (by omega)
    subst this; rfl
  | succ n ih =>
    intro digits h
    match digits, h with
    | [], h => simp at h
    | [_], h => simp at h; omega
    | hi :: lo :: ds, h =>
      simp only [decodeHex, List.length_cons]
      rw [ih ds (by simp at h; omega)]

theorem readKeyFile_digits (ws digits rest : Bytes)
    (hws : ∀ c ∈ ws, isspace c = true) (hlen : digits.length = 64)
    (hhex : ∀ c ∈ digits, (hexDigit c).isSome = true) :
    readKeyFile false (some (ws ++ digits ++ rest)) = (true, decodeHex digits) := by
  unfold readKeyFile
  simp only [crypto_aead_aes256gcm_KEYBYTES, extractWord_digits ws digits rest hws hlen hhex]
  have hpad : List.replicate (32 * 2 + 1 - digits.length) 0 = [0] := by rw [hlen]; rfl
  have htake : (digits ++ [0]).take (32 * 2 + 1) = digits ++ [0] := by
    apply List.take_of_length_le; simp [hlen]
  have hloop := sodium_hex2bin_loop_digits 32 32 digits [0] [] 0 hlen hhex (by simp)
  simp only [sodium_hex2bin, hpad, htake, hloop]
  simp [sodium_hex2bin_loop, hexDigit]

/-- The parsing loop keeps `hex_pos` equal to twice the number of bytes written, plus one
when half a byte is pending, and never writes more than `bin_maxlen` bytes. -/
theorem sodium_hex2bin_loop_pos (bin_maxlen : Nat) (cs : Bytes) :
    ∀ (bin : Bytes) (hex_pos : Nat) (c_acc : Option Nat),
      hex_pos = 2 * bin.length + (if c_acc.isSome then 1 else 0) → bin.length ≤ bin_maxlen →
      (sodium_hex2bin_loop bin_maxlen cs bin hex_pos c_acc).2.2.1
        = 2 * (sodium_hex2bin_loop bin_maxlen cs bin hex_pos c_acc).2.1.length
          + (if (sodium_hex2bin_loop bin_maxlen cs bin hex_pos c_acc).2.2.2 then 1 else 0) ∧
      (sodium_hex2bin_loop bin_maxlen cs bin hex_pos c_acc).2.1.length ≤ bin_maxlen := by
  induction cs with
  | nil => intro bin hex_pos c_acc hpos hfit; exact ⟨hpos, hfit⟩
  | cons c cs ih =>
    intro bin hex_pos c_acc hpos hfit
    unfold sodium_hex2bin_loop
    split
    · exact ⟨hpos, hfit⟩
    · split
      · exact ⟨hpos, hfit⟩
      · rename_i hlt
        split
        · apply ih
          · simp only [Option.isSome_none, Bool.false_eq_true, if_false] at hpos
            simp only [Option.isSome_some, if_true]
            omega
          · exact hfit
        · apply ih
          · simp only [Option.isSome_some, if_true] at hpos
            simp only [Option.isSome_none, Bool.false_eq_true, if_false, List.length_append,
              List.length_singleton]
            omega
          · simp only [List.length_append, List.length_singleton]
            omega

/-- With the later `sodium_hex2bin`, `readKeyFile` returns false for every file: the
65 characters it asks to parse cannot all be digits of a 32-byte key. -/
theorem readKeyFile_checksEnd (file : Option Bytes) : (readKeyFile true file).1 = false := by
  cases file with
  | none => rfl
  | some content =>
    simp only [readKeyFile, crypto_aead_aes256gcm_KEYBYTES]
    cases extractWord (32 * 2 + 1) content with
    | none => rfl
    | some word =>
      simp only [sodium_hex2bin, if_true]
      obtain ⟨hpos, hfit⟩ := sodium_hex2bin_loop_pos 32
        ((word ++ List.replicate (32 * 2 + 1 - word.length) 0).take (32 * 2 + 1)) [] 0 none
        (by simp) (by simp)
      generalize sodium_hex2bin_loop 32
        ((word ++ List.replicate (32 * 2 + 1 - word.length) 0).take (32 * 2 + 1)) [] 0 none = r
        at hpos hfit
      obtain ⟨ret, bin, pos, pending⟩ := r
      simp only at hpos hfit ⊢
      cases pending with
      | true => simp
      | false =>
        simp only [Bool.false_eq_true, if_false] at hpos ⊢
        have hne : pos ≠ 32 * 2 + 1 := by omega
        simp [hne]

/-- With `sodium_hex2bin` as it was when the code was written, a word that is no 256-bit
key is accepted: "ab" with one key byte written, "zz" with none. No check of the number
of decoded bytes follows the call. -/
theorem readKeyFile_accepts_short_word :
    readKeyFile false (some [97, 98]) = (true, [171]) ∧
    readKeyFile false (some [122, 122]) = (true, []) := by
  decide

/-- C8. Key loading, evaluated on a well-formed key file. `readKeyFile` hands
`sodium_hex2bin` the length `key_hex_length` = 65, the size of the buffer with its
terminating zero, instead of the length of the word it read. The library, which returns
-1 for a string it cannot parse up to `hex_len` when no `hex_end` pointer is given,
therefore refuses the file that holds exactly 64 hexadecimal digits: the 32 key bytes
are decoded, `readKeyFile` returns false, and `setup` fails with "Failed to read key from
file". The same holds for every file: `readKeyFile` never returns true. -/
theorem C8_readKeyFile_refuses_key :
    readKeyFile true (some (List.replicate 64 97)) = (false, List.replicate 32 170) ∧
    AESGCMFunction.setup checksumAead true true (fun _ => some (List.replicate 64 97))
      (some "key.hex") ["c"] = .error (.keyFile "key.hex") ∧
    (∀ file : Option Bytes, (readKeyFile true file).1 = false) :=
  ⟨by decide, by rfl, readKeyFile_checksEnd⟩

/-! ## C11: arity -/

theorem decrypt_row_not_arity {Ctx : Type} (prim : Aes256Gcm Ctx) (f : AESGCMFunction Ctx)
    (numCols : Nat) (r : Row) (k : Nat) :
    (AESGCMDecrypt.processRow prim f numCols r).result ≠ .error (.arity k) := by
  intro h
  rcases isNull_zero_cases r with ⟨hnull, _⟩ | ⟨e, rest, rfl⟩
  · rw [decrypt_row_null prim f numCols r hnull] at h
    simp at h
  · by_cases hlen : e.length < 28
    · rw [decrypt_row_short prim f numCols e rest hlen] at h
      simp at h
    · rw [decrypt_row_long prim f numCols e rest (by omega)] at h
      simp only at h
      split at h
      · simp at h
      · split at h <;> simp at h

theorem decrypt_loop_not_arity {Ctx : Type} (prim : Aes256Gcm Ctx) (f : AESGCMFunction Ctx)
    (numCols : Nat) (rows : List Row) (k : Nat) :
    (AESGCMDecrypt.loop prim f numCols rows).result ≠ .error (.arity k) := by
  induction rows with
  | nil => simp [AESGCMDecrypt.loop]
  | cons r rs ih =>
    intro h
    unfold AESGCMDecrypt.loop at h
    simp only at h
    split at h
    · rename_i e he
      simp only [Except.error.injEq] at h
      subst h
      exact decrypt_row_not_arity prim f numCols r k he
    · split at h
      · rename_i e he
        simp only [Except.error.injEq] at h
        subst h
        exact ih he
      · simp at h

/-- C11. Arity: `AESGCMEncrypt::processBlock`, `AESGCMDecrypt::processBlock` and
`AESGCMFunction::setup` fail with the arity error if and only if the number `n` of
argument columns is neither 1 nor 2. The error then names `n` (3 for three argument
columns), and both `processBlock` functions end with an empty trace: no nonce is drawn,
no column value is fetched, the primitive is not called, and no result is written (the
outcome is the error, whatever the rows and the random bytes are). With an unsupported
count `setup` reports the arity error whatever the key parameter, the files and the
platform support are. -/
theorem C11_arity {Ctx : Type} (prim : Aes256Gcm Ctx) (f : AESGCMFunction Ctx)
    (seed : Bytes) (arg_reader : BlockReader) (checksEnd available : Bool)
    (files : String → Option Bytes) (keyParam : Option String) (columnNames : List String) :
    ((∃ k, (AESGCMEncrypt.processBlock prim f seed arg_reader).result = .error (.arity k)) ↔
      (arg_reader.numCols ≠ 1 ∧ arg_reader.numCols ≠ 2)) ∧
    ((∃ k, (AESGCMDecrypt.processBlock prim f arg_reader).result = .error (.arity k)) ↔
      (arg_reader.numCols ≠ 1 ∧ arg_reader.numCols ≠ 2)) ∧
    ((∃ k, AESGCMFunction.setup prim checksEnd available files keyParam columnNames
        = .error (.arity k)) ↔
      (columnNames.length ≠ 1 ∧ columnNames.length ≠ 2)) ∧
    (arg_reader.numCols ≠ 1 ∧ arg_reader.numCols ≠ 2 →
      AESGCMEncrypt.processBlock prim f seed arg_reader
        = ⟨.error (.arity arg_reader.numCols), []⟩ ∧
      AESGCMDecrypt.processBlock prim f arg_reader
        = ⟨.error (.arity arg_reader.numCols), []⟩) ∧
    (columnNames.length ≠ 1 ∧ columnNames.length ≠ 2 →
      AESGCMFunction.setup prim checksEnd available files keyParam columnNames
        = .error (.arity columnNames.length)) ∧
    (∀ (row : Row) (more : List Row),
      AESGCMEncrypt.processBlock prim f seed ⟨3, row, more⟩ = ⟨.error (.arity 3), []⟩ ∧
      AESGCMDecrypt.processBlock prim f ⟨3, row, more⟩ = ⟨.error (.arity 3), []⟩) := by
  have hbad : ∀ n : Nat, n ≠ 1 ∧ n ≠ 2 → (decide (n < 1) || decide (n > 2)) = true := by
    intro n hn
    simp only [Bool.or_eq_true, decide_eq_true_eq]
    omega
  have hgood : ∀ n : Nat, ¬ (n ≠ 1 ∧ n ≠ 2) → n = 1 ∨ n = 2 := by
    intro n hn
    omega
  have henc : arg_reader.numCols ≠ 1 ∧ arg_reader.numCols ≠ 2 →
      AESGCMEncrypt.processBlock prim f seed arg_reader
        = ⟨.error (.arity arg_reader.numCols), []⟩ := by
    intro hn
    unfold AESGCMEncrypt.processBlock
    rw [if_pos (hbad _ hn)]
  have hdec : arg_reader.numCols ≠ 1 ∧ arg_reader.numCols ≠ 2 →
      AESGCMDecrypt.processBlock prim f arg_reader
        = ⟨.error (.arity arg_reader.numCols), []⟩ := by
    intro hn
    unfold AESGCMDecrypt.processBlock
    rw [if_pos (hbad _ hn)]
  have hset : columnNames.length ≠ 1 ∧ columnNames.length ≠ 2 →
      AESGCMFunction.setup prim checksEnd available files keyParam columnNames
        = .error (.arity columnNames.length) := by
    intro hn
    unfold AESGCMFunction.setup
    rw [if_pos (hbad _ hn)]
  refine ⟨⟨?_, fun hn => ⟨_, by rw [henc hn]⟩⟩, ⟨?_, fun hn => ⟨_, by rw [hdec hn]⟩⟩,
    ⟨?_, fun hn => ⟨_, hset hn⟩⟩, fun hn => ⟨henc hn, hdec hn⟩, hset, fun row more => ⟨rfl, rfl⟩⟩
  · rintro ⟨k, hk⟩
    by_contra hn
    rw [encrypt_block_eq prim f seed arg_reader (hgood _ hn)] at hk
    simp at hk
  · rintro ⟨k, hk⟩
    by_contra hn
    rw [decrypt_block_eq prim f arg_reader (hgood _ hn)] at hk
    exact decrypt_loop_not_arity prim f _ _ k hk
  · rintro ⟨k, hk⟩
    by_contra hn
    have hcols := hgood _ hn
    unfold AESGCMFunction.setup at hk
    rw [if_neg (by rcases hcols with h | h <;> simp [h])] at hk
    split at hk
    · simp at hk
    · simp only at hk
      split at hk
      · simp at hk
      · split at hk <;> simp at hk

/-- Instance: a call with three argument columns, and `setup` with no argument column. -/
theorem C11_arity_witness :
    ((3 : Nat) ≠ 1 ∧ (3 : Nat) ≠ 2) ∧
    AESGCMEncrypt.processBlock checksumAead ⟨[7], "c"⟩ [1, 2, 3, 4, 5, 6, 7, 8, 9, 10, 11, 12]
      ⟨3, [some [104, 105], some [107], some [108]], []⟩ = ⟨.error (.arity 3), []⟩ ∧
    AESGCMDecrypt.processBlock checksumAead ⟨[7], "c"⟩
      ⟨3, [some [104, 105], some [107], some [108]], []⟩ = ⟨.error (.arity 3), []⟩ ∧
    AESGCMFunction.setup checksumAead false true (fun _ => none) (some "k") []
      = .error (.arity 0) :=
  ⟨by decide,
    ((C11_arity checksumAead ⟨[7], "c"⟩ [1, 2, 3, 4, 5, 6, 7, 8, 9, 10, 11, 12]
      ⟨3, [some [104, 105], some [107], some [108]], []⟩ false true (fun _ => none) (some "k")
      []).2.2.2.1 (by decide)).1,
    ((C11_arity checksumAead ⟨[7], "c"⟩ [1, 2, 3, 4, 5, 6, 7, 8, 9, 10, 11, 12]
      ⟨3, [some [104, 105], some [107], some [108]], []⟩ false true (fun _ => none) (some "k")
      []).2.2.2.1 (by decide)).2,
    (C11_arity checksumAead ⟨[7], "c"⟩ [1, 2, 3, 4, 5, 6, 7, 8, 9, 10, 11, 12]
      ⟨3, [some [104, 105], some [107], some [108]], []⟩ false true (fun _ => none) (some "k")
      []).2.2.2.2.1 (by decide)⟩

/-! ## C12: the output fits the declared type -/

theorem decrypt_row_ok_length {Ctx : Type} (prim : Aes256Gcm Ctx) (f : AESGCMFunction Ctx)
    (numCols : Nat) (e : Bytes) (rest : Row) (v : Option Bytes)
    (h : (AESGCMDecrypt.processRow prim f numCols (some e :: rest)).result = .ok v) :
    ∃ m : Bytes, v = some m ∧ 28 ≤ e.length ∧ m.length = e.length - 28 := by
  by_cases hlen : e.length < 28
  · rw [decrypt_row_short prim f numCols e rest hlen] at h
    simp at h
  · have hge : 28 ≤ e.length := by omega
    rw [decrypt_row_long prim f numCols e rest hge] at h
    simp only at h
    split at h
    · simp at h
    · split at h
      · simp at h
      · simp only [Except.ok.injEq] at h
        exact ⟨_, h.symm, hge, by rw [length_writeAt, length_alloc]⟩

/-- Every envelope of a run of the encryption loop is at most 28 bytes longer than the
longest primary value. -/
theorem encrypt_loop_length_le {Ctx : Type} (prim : Aes256Gcm Ctx) (f : AESGCMFunction Ctx)
    (numCols : Nat) (B : Nat) (rows : List Row) :
    ∀ nonce, (∀ r ∈ rows, (r.getStringRef 0).length ≤ B) →
      ∀ env ∈ nonNull (AESGCMEncrypt.loop prim f numCols nonce rows).1,
        env.length ≤ B + 28 := by
  induction rows with
  | nil => intro nonce _ env he; simp [AESGCMEncrypt.loop, nonNull] at he
  | cons r rs ih =>
    intro nonce hB env he
    have hrs : ∀ r' ∈ rs, (Row.getStringRef r' 0).length ≤ B :=
      fun r' hr' => hB r' (List.mem_cons_of_mem _ hr')
    rcases isNull_zero_cases r with ⟨hnull, _⟩ | ⟨p, rest, rfl⟩
    · simp only [AESGCMEncrypt.loop, encrypt_row_null prim f numCols nonce r hnull,
        nonNull_none] at he
      exact ih nonce hrs env he
    · have hp : p.length ≤ B := by
        have := hB (some p :: rest) (List.mem_cons_self _ _)
        simpa [Row.getStringRef] using this
      simp only [AESGCMEncrypt.loop, encrypt_row_some, nonNull_some, List.mem_cons] at he
      rcases he with rfl | he
      · rw [length_writeAt, length_writeAt, length_alloc, overhead_eq]
        omega
      · exact ih _ hrs env he

/-- Every plaintext of a run of the decryption loop that ends without error is at least
28 bytes shorter than the longest primary value. -/
theorem decrypt_loop_length_le {Ctx : Type} (prim : Aes256Gcm Ctx) (f : AESGCMFunction Ctx)
    (numCols : Nat) (B : Nat) (rows : List Row) :
    ∀ outs, (AESGCMDecrypt.loop prim f numCols rows).result = .ok outs →
      (∀ r ∈ rows, (r.getStringRef 0).length ≤ B) →
      ∀ m ∈ nonNull outs, m.length + 28 ≤ B := by
  induction rows with
  | nil =>
    intro outs h _ m hm
    simp only [AESGCMDecrypt.loop, Except.ok.injEq] at h
    subst h
    simp [nonNull] at hm
  | cons r rs ih =>
    intro outs h hB m hm
    have hrs : ∀ r' ∈ rs, (Row.getStringRef r' 0).length ≤ B :=
      fun r' hr' => hB r' (List.mem_cons_of_mem _ hr')
    unfold AESGCMDecrypt.loop at h
    simp only at h
    split at h
    · simp at h
    · rename_i v hv
      split at h
      · simp at h
      · rename_i vs hvs
        simp only [Except.ok.injEq] at h
        subst h
        rcases isNull_zero_cases r with ⟨hnull, _⟩ | ⟨e, rest, rfl⟩
        · rw [decrypt_row_null prim f numCols r hnull] at hv
          simp only [Except.ok.injEq] at hv
          subst hv
          rw [nonNull_none] at hm
          exact ih vs hvs hrs m hm
        · obtain ⟨m0, hm0, hge, hl⟩ := decrypt_row_ok_length prim f numCols e rest v hv
          subst hm0
          have he : e.length ≤ B := by
            have := hB (some e :: rest) (List.mem_cons_self _ _)
            simpa [Row.getStringRef] using this
          rw [nonNull_some, List.mem_cons] at hm
          rcases hm with rfl | hm
          · omega
          · exact ih vs hvs hrs m hm

/-- C12. The output of a row fits the declared result type: for every declared input
length `Y ≥ 1` (with `Y + 28` within the 32-bit range of the length argument, which
covers every length the host can declare) and every non-null input value of length at
most `Y`, the envelope written by a step of `AESGCMEncrypt::processBlock` is no longer
than the length `AESGCMEncryptFactory::getReturnType` declares for `Y`, and every
plaintext that a step of `AESGCMDecrypt::processBlock` writes without error is no longer
than the length `AESGCMDecryptFactory::getReturnType` declares for `Y`; the same holds
for every value of the result column of a whole block. In the clamped case `Y ≤ 28` the
declared length is 1, and an envelope that decrypts without error has length 28 and a
plaintext of length 0. -/
theorem C12_output_fits {Ctx : Type} (prim : Aes256Gcm Ctx) (f : AESGCMFunction Ctx)
    (Y : Int) (hY : 1 ≤ Y) (hmax : Y + 28 < 2 ^ 31) :
    (∃ nE nD : Int,
      AESGCMEncryptFactory.getReturnType Y = .varbinary nE ∧
      AESGCMDecryptFactory.getReturnType Y = .varchar nD ∧
      (∀ (numCols : Nat) (nonce p : Bytes) (rest : Row), (p.length : Int) ≤ Y →
        ∃ envelope : Bytes,
          (AESGCMEncrypt.processRow prim f numCols nonce (some p :: rest)).1 = some envelope ∧
          (envelope.length : Int) ≤ nE) ∧
      (∀ (numCols : Nat) (e : Bytes) (rest : Row) (m : Bytes), (e.length : Int) ≤ Y →
        (AESGCMDecrypt.processRow prim f numCols (some e :: rest)).result = .ok (some m) →
        (m.length : Int) ≤ nD) ∧
      (∀ (seed : Bytes) (arg_reader : BlockReader),
        (arg_reader.numCols = 1 ∨ arg_reader.numCols = 2) →
        (∀ r ∈ arg_reader.rows, ((r.getStringRef 0).length : Int) ≤ Y) →
        ∃ envelopes : List (Option Bytes),
          (AESGCMEncrypt.processBlock prim f seed arg_reader).result = .ok envelopes ∧
          ∀ env ∈ nonNull envelopes, (env.length : Int) ≤ nE) ∧
      (∀ (arg_reader : BlockReader) (outs : List (Option Bytes)),
        (∀ r ∈ arg_reader.rows, ((r.getStringRef 0).length : Int) ≤ Y) →
        (AESGCMDecrypt.processBlock prim f arg_reader).result = .ok outs →
        ∀ m ∈ nonNull outs, (m.length : Int) ≤ nD)) ∧
    (Y ≤ 28 →
      AESGCMDecryptFactory.getReturnType Y = .varchar 1 ∧
      ∀ (numCols : Nat) (e : Bytes) (rest : Row) (m : Bytes), (e.length : Int) ≤ Y →
        (AESGCMDecrypt.processRow prim f numCols (some e :: rest)).result = .ok (some m) →
        e.length = 28 ∧ m.length = 0) := by
  have henc : toInt32 (Y + 28) = Y + 28 := by
    unfold toInt32; omega
  have hdec : toInt32 (Y - 28) = Y - 28 := by
    unfold toInt32; omega
  have hE : AESGCMEncryptFactory.getReturnType Y = .varbinary (Y + 28) := by
    simp only [AESGCMEncryptFactory.getReturnType, overhead_eq, Nat.cast_ofNat, henc]
  have hD : AESGCMDecryptFactory.getReturnType Y
      = .varchar (if Y - 28 > 0 then Y - 28 else 1) := by
    simp only [AESGCMDecryptFactory.getReturnType, overhead_eq, Nat.cast_ofNat, hdec]
  have hrowD : ∀ (numCols : Nat) (e : Bytes) (rest : Row) (m : Bytes),
      (AESGCMDecrypt.processRow prim f numCols (some e :: rest)).result = .ok (some m) →
      28 ≤ e.length ∧ m.length = e.length - 28 := by
    intro numCols e rest m h
    obtain ⟨m0, hm0, hge, hl⟩ := decrypt_row_ok_length prim f numCols e rest (some m) h
    simp only [Option.some.injEq] at hm0
    subst hm0
    exact ⟨hge, hl⟩
  refine ⟨⟨Y + 28, _, hE, hD, ?_, ?_, ?_, ?_⟩, ?_⟩
  · intro numCols nonce p rest hp
    refine ⟨_, by rw [encrypt_row_some], ?_⟩
    rw [length_writeAt, length_writeAt, length_alloc, overhead_eq]
    push_cast
    omega
  · intro numCols e rest m he h
    obtain ⟨hge, hl⟩ := hrowD numCols e rest m h
    split <;> omega
  · intro seed arg_reader hcols hrows
    refine ⟨_, by rw [encrypt_block_eq prim f seed arg_reader hcols], ?_⟩
    intro env henv
    have hB : ∀ r ∈ arg_reader.rows, (Row.getStringRef r 0).length ≤ Y.toNat := by
      intro r hr
      have := hrows r hr
      omega
    have := encrypt_loop_length_le prim f arg_reader.numCols Y.toNat arg_reader.rows seed hB
      env henv
    omega
  · intro arg_reader outs hrows hres m hm
    have hB : ∀ r ∈ arg_reader.rows, (Row.getStringRef r 0).length ≤ Y.toNat := by
      intro r hr
      have := hrows r hr
      omega
    unfold AESGCMDecrypt.processBlock at hres
    split at hres
    · simp at hres
    · have := decrypt_loop_length_le prim f arg_reader.numCols Y.toNat arg_reader.rows outs
        hres hB m hm
      split <;> omega
  · intro hle
    refine ⟨by rw [hD, if_neg (by omega)], ?_⟩
    intro numCols e rest m he h
    obtain ⟨hge, hl⟩ := hrowD numCols e rest m h
    omega

/-- Instance at the declared length 28: the 28-byte envelope of the empty plaintext under
the stand-in primitive decrypts to the empty plaintext, within the declared length 1. -/
theorem C12_output_fits_witness :
    (1 : Int) ≤ 28 ∧ (28 : Int) + 28 < 2 ^ 31 ∧
    AESGCMDecryptFactory.getReturnType 28 = .varchar 1 ∧
    (AESGCMDecrypt.processRow checksumAead ⟨[7], "c"⟩ 1
      [some [1, 2, 3, 4, 5, 6, 7, 8, 9, 10, 11, 12,
        85, 0, 0, 0, 0, 0, 0, 0, 0, 0, 0, 0, 0, 0, 0, 0]]).result = .ok (some []) ∧
    ([1, 2, 3, 4, 5, 6, 7, 8, 9, 10, 11, 12,
        85, 0, 0, 0, 0, 0, 0, 0, 0, 0, 0, 0, 0, 0, 0, 0] : Bytes).length = 28 ∧
    ([] : Bytes).length = 0 := by
  have h := C12_output_fits checksumAead ⟨[7], "c"⟩ 28 (by decide) (by decide)
  have hdec : (AESGCMDecrypt.processRow checksumAead ⟨[7], "c"⟩ 1
      [some [1, 2, 3, 4, 5, 6, 7, 8, 9, 10, 11, 12,
        85, 0, 0, 0, 0, 0, 0, 0, 0, 0, 0, 0, 0, 0, 0, 0]]).result = .ok (some []) := by rfl
  have hfit := (h.2 (by decide)).2 1 _ [] [] (by decide) hdec
  exact ⟨by decide, by decide, (h.2 (by decide)).1, hdec, hfit.1, hfit.2⟩

end VerticaAesGcm
